import Mathlib

/-!
Verification development for the DRAT proof-logging and proof-checking layer
of the SAT solver (`src/sat/sat_drat.h`).  The available source is the class
header: it fixes the data model (clause store with status tags, unit trail,
assignment vector, inconsistency flag, term-bridge tables, output streams)
and the public operations.  Function bodies are not part of the sources, so
the operational definitions below are modelled from the specification text
and are marked as such; the inline convenience overloads of `verify` and
`contains` are taken directly from the header.
-/

set_option maxHeartbeats 1000000

namespace sat

/-- A literal: a boolean variable id together with a polarity.
`sign = true` is the positive literal of the variable. -/
structure Lit where
  var : Nat
  sign : Bool
deriving DecidableEq

/-- The complementary literal over the same variable. -/
def Lit.negate (l : Lit) : Lit := ⟨l.var, !l.sign⟩

/-- A clause is an ordered sequence of literals. -/
abbrev Clause := List Lit

/-- Clause status tags, from `enum status` of the header. -/
inductive Status where
  | asserted
  | learned
  | deleted
  | ba
  | euf
deriving DecidableEq

/-- The tri-valued assignment: `none` is unassigned. -/
abbrev Assignment := Nat → Option Bool

/-- The literal evaluates to true under the partial assignment. -/
def litIsTrue (A : Assignment) (l : Lit) : Bool := decide (A l.var = some l.sign)

/-- The literal evaluates to false under the partial assignment. -/
def litIsFalse (A : Assignment) (l : Lit) : Bool := decide (A l.var = some (!l.sign))

/-- A clause is falsified when every literal evaluates to false. -/
def falsified (A : Assignment) (C : Clause) : Bool := C.all (litIsFalse A)

/-- Modelled from the spec: conflict detection of the watch/propagation engine —
a conflict is a clause of the set whose literals are all false. -/
def hasConflict (F : List Clause) (A : Assignment) : Bool := F.any (falsified A)

/-- Modelled from the spec: a clause is unit when it has no true literal and all
its unassigned literals coincide on one literal, which is then forced. -/
def findUnit (A : Assignment) (C : Clause) : Option Lit :=
  if C.any (litIsTrue A) then none
  else
    match C.filter (fun l => decide (A l.var = none)) with
    | [] => none
    | l :: rest => if rest.all (fun x => decide (x = l)) then some l else none

/-- First unit literal found among the clauses of the set. -/
def findUnitList (A : Assignment) : List Clause → Option Lit
  | [] => none
  | C :: Cs =>
    match findUnit A C with
    | some l => some l
    | none => findUnitList A Cs

/-- The propagation-engine state private to a verification episode:
the assignment vector (`m_assignment`) and the trail of forced literals
(`m_units`). -/
structure PropState where
  assignment : Assignment
  trail : List Lit

/-- The episode-initial state: all variables unassigned, empty trail. -/
def emptyProp : PropState := ⟨fun _ => none, []⟩

/-- Modelled from the spec: `assign(l)` forces `l` true and appends it to the
trail without propagating. -/
def assignLit (ps : PropState) (l : Lit) : PropState :=
  ⟨fun v => if v = l.var then some l.sign else ps.assignment v, l :: ps.trail⟩

/-- Modelled from the spec: temporarily assign a list of literals in order.
Assigning a literal whose variable already holds the opposite value signals a
conflict (`true` in the first component); an agreeing assignment is skipped. -/
def assignLits (ps : PropState) : List Lit → Bool × PropState
  | [] => (false, ps)
  | l :: ls =>
    match ps.assignment l.var with
    | none => assignLits (assignLit ps l) ls
    | some b => if b = l.sign then assignLits ps ls else (true, ps)

/-- Modelled from the spec: run unit propagation to closure, bounded by fuel;
each step either stops on a conflict, forces one unit literal, or stops at
saturation when no unit clause remains. -/
def propagateN (F : List Clause) : Nat → PropState → PropState
  | 0, ps => ps
  | fuel + 1, ps =>
    if hasConflict F ps.assignment then ps
    else
      match findUnitList ps.assignment F with
      | some l => propagateN F fuel (assignLit ps l)
      | none => ps

/-- All variable occurrences of a clause set. -/
def varsOf (F : List Clause) : List Nat := F.flatMap (fun C => C.map Lit.var)

/-- Fuel that always suffices to reach saturation: one step per occurrence. -/
def fuelFor (F : List Clause) : Nat := (varsOf F).length + 1

/-- Modelled from the spec: the core of `is_drup(n, c)` — temporarily assign
the negation of every literal of the candidate clause, run propagation to
closure, report whether a conflict arose; the reached propagation state is
returned for the caller to unwind. -/
def is_drupCore (F : List Clause) (ps : PropState) (c : Clause) : Bool × PropState :=
  match assignLits ps (c.map Lit.negate) with
  | (true, ps1) => (true, ps1)
  | (false, ps1) =>
    let ps2 := propagateN F (fuelFor F) ps1
    (hasConflict F ps2.assignment, ps2)

/-- The RUP check run from the episode-initial propagation state. -/
def is_drupB (F : List Clause) (c : Clause) : Bool := (is_drupCore F emptyProp c).1

/-- Modelled from the spec: the resolvent on a pivot — the literals of `c`
except the pivot together with the literals of `d` except the pivot's
complement. -/
def resolvent (c : Clause) (pivot : Lit) (d : Clause) : Clause :=
  c.filter (fun l => decide (l ≠ pivot)) ++ d.filter (fun l => decide (l ≠ pivot.negate))

/-- Modelled from the spec: `is_drat(n, c, pos)` — with the pivot fixed at
position `pos`, every live clause containing the pivot's complement must have
its resolvent implied by RUP. -/
def is_dratB (F : List Clause) (c : Clause) (pos : Nat) : Bool :=
  let pivot := c.getD pos ⟨0, true⟩
  F.all (fun d => if pivot.negate ∈ d then is_drupB F (resolvent c pivot d) else true)

/-- Record of one term definition of the logical-term bridge:
term id, head symbol and ordered argument term ids. -/
structure TDef where
  id : Nat
  name : String
  args : List Nat
deriving DecidableEq

/-- State of the DRAT layer, mirroring the fields of class `drat`:
`m_proof`/`m_status` are merged into one list of tagged clauses; the two
output streams are kept as the lists of lines written so far. -/
structure DratState where
  m_proof : List (Clause × Status)
  m_units : List Lit
  m_assignment : Assignment
  m_inconsistent : Bool
  m_bool_def : Nat → Option Nat
  m_def_open : Option TDef
  m_defs : List TDef
  m_out : List String
  m_bout : List String
  m_check_unsat : Bool
  m_check_sat : Bool
  m_check : Bool
  m_activity : Bool

/-- Modelled from the spec: the live (non-deleted) clauses, in proof-log order. -/
def liveClauses (st : DratState) : List Clause :=
  (st.m_proof.filter (fun e => decide (e.2 ≠ Status.deleted))).map Prod.fst

/-- Undo the most recent trail entry, unassigning its variable. -/
def undoOne (ps : PropState) : PropState :=
  match ps.trail with
  | [] => ps
  | l :: tr => ⟨fun v => if v = l.var then none else ps.assignment v, tr⟩

/-- Undo the given number of trail entries in reverse chronological order. -/
def unwindN : Nat → PropState → PropState
  | 0, ps => ps
  | k + 1, ps => unwindN k (undoOne ps)

/-- Modelled from the spec: `is_drup(n, c)` of the layer — run the RUP core on
the private propagation state, then unwind every assignment made during the
episode in reverse order, on every exit path. -/
def DratState.is_drup (st : DratState) (c : Clause) : Bool × DratState :=
  let ps0 : PropState := ⟨st.m_assignment, st.m_units⟩
  let r := is_drupCore (liveClauses st) ps0 c
  let ps2 := unwindN (r.2.trail.length - ps0.trail.length) r.2
  (r.1, { st with m_assignment := ps2.assignment, m_units := ps2.trail })

/-- Modelled from the spec: check the resolvent of every clause of the list
that contains the pivot's complement, threading the layer state. -/
def checkResolvents (c : Clause) (pivot : Lit) : List Clause → DratState → Bool × DratState
  | [], st => (true, st)
  | d :: ds, st =>
    if pivot.negate ∈ d then
      let r := st.is_drup (resolvent c pivot d)
      if r.1 then checkResolvents c pivot ds r.2 else (false, r.2)
    else checkResolvents c pivot ds st

/-- Modelled from the spec: `is_drat(n, c, pos)` of the layer. -/
def DratState.is_drat_pos (st : DratState) (c : Clause) (pos : Nat) : Bool × DratState :=
  checkResolvents c (c.getD pos ⟨0, true⟩) (liveClauses st) st

/-- Modelled from the spec: try every pivot position in turn. -/
def searchPivots (c : Clause) : List Nat → DratState → Bool × DratState
  | [], st => (false, st)
  | p :: ps, st =>
    let r := st.is_drat_pos c p
    if r.1 then (true, r.2) else searchPivots c ps r.2

/-- Modelled from the spec: `is_drat(n, c)` — the RAT check used when plain
RUP fails, searching over pivot positions. -/
def DratState.is_drat (st : DratState) (c : Clause) : Bool × DratState :=
  let r := st.is_drup c
  if r.1 then (true, r.2) else searchPivots c (List.range c.length) r.2

/-- Modelled from the spec: `verify(n, c)` — once the layer is globally unsat
every verification short-circuits to valid; otherwise run the RUP/RAT check,
and a derivation of the unconditional top-level conflict (a valid empty
candidate) sets the terminal inconsistency flag. -/
def DratState.verify (st : DratState) (c : Clause) : Bool × DratState :=
  if st.m_inconsistent then (true, st)
  else
    let r := st.is_drat c
    if r.1 && c.isEmpty then (true, { r.2 with m_inconsistent := true })
    else (r.1, r.2)

/-- Modelled from the spec: textual form of a literal in the certificate grammar. -/
def litText (l : Lit) : String := (if l.sign then "" else "-") ++ toString l.var

/-- Modelled from the spec: textual form of a clause body, terminated by the literal `0`. -/
def clauseText (c : Clause) : String := String.join (c.map (fun l => litText l ++ " ")) ++ "0"

/-- Modelled from the spec: leading marker of a certificate line, per status tag. -/
def statusMark : Status → String
  | Status.asserted => ""
  | Status.learned => ""
  | Status.deleted => "d "
  | Status.ba => "c ba "
  | Status.euf => "c euf "

/-- Modelled from the spec: one canonical certificate line for a tagged clause. -/
def dumpLine (c : Clause) (s : Status) : String := statusMark s ++ clauseText c

/-- Modelled from the spec: `add` — append the clause to the store and emit a
canonical line to the primary stream, and a parallel line to the secondary
stream when activity dumping is enabled. -/
def DratState.add (st : DratState) (c : Clause) (s : Status) : DratState :=
  { st with
    m_proof := st.m_proof ++ [(c, s)]
    m_out := st.m_out ++ [dumpLine c s]
    m_bout := if st.m_activity then st.m_bout ++ [dumpLine c s] else st.m_bout }

/-- Modelled from the spec: clause equivalence as same literal set — each clause's literals are contained in the other's. -/
def litSetEq (c d : Clause) : Bool :=
  c.all (fun l => decide (l ∈ d)) && d.all (fun l => decide (l ∈ c))

/-- Modelled from the spec: `del` — transition the status of the matching live
clauses to `deleted` and emit a deletion line. -/
def DratState.del (st : DratState) (c : Clause) : DratState :=
  { st with
    m_proof := st.m_proof.map (fun e => if litSetEq c e.1 then (e.1, Status.deleted) else e)
    m_out := st.m_out ++ [dumpLine c Status.deleted]
    m_bout := if st.m_activity then st.m_bout ++ [dumpLine c Status.deleted] else st.m_bout }

/-- Modelled from the spec: `contains(n, c)` — whether an equivalent clause
(same literal set) is currently live, without mutating state. -/
def DratState.contains (st : DratState) (c : Clause) : Bool :=
  (liveClauses st).any (litSetEq c)

/-- Modelled from the spec: `bool_def(v, n)` — record that boolean variable
`v` denotes term `n`; a rebinding to the same term is a no-op, a rebinding to
a different term is a reported error; a first binding is recorded and emitted. -/
def DratState.bool_def (st : DratState) (v : Nat) (n : Nat) : Bool × DratState :=
  match st.m_bool_def v with
  | some m => if m = n then (true, st) else (false, st)
  | none =>
    (true, { st with
      m_bool_def := fun w => if w = v then some n else st.m_bool_def w
      m_out := st.m_out ++ ["c b " ++ toString v ++ " := " ++ toString n ++ " 0"] })

/-- Modelled from the spec: `def_begin(n, name)` — open a term definition;
opening a second definition while one is open is a reported error. -/
def DratState.def_begin (st : DratState) (n : Nat) (name : String) : Bool × DratState :=
  match st.m_def_open with
  | some _ => (false, st)
  | none => (true, { st with m_def_open := some ⟨n, name, []⟩ })

/-- Modelled from the spec: `def_add_arg(arg)` — append one ordered argument
to the in-progress definition. -/
def DratState.def_add_arg (st : DratState) (a : Nat) : DratState :=
  { st with m_def_open := st.m_def_open.map (fun d => ⟨d.id, d.name, d.args ++ [a]⟩) }

/-- Modelled from the spec: certificate line of a committed term definition. -/
def defLine (d : TDef) : String :=
  "c n " ++ toString d.id ++ " := " ++ d.name ++ " " ++
    String.join (d.args.map (fun a => toString a ++ " ")) ++ "0"

/-- Modelled from the spec: `def_end()` — commit the in-progress definition to
the term table and clear the in-progress slot. -/
def DratState.def_end (st : DratState) : DratState :=
  match st.m_def_open with
  | none => st
  | some d =>
    { st with m_defs := st.m_defs ++ [d], m_def_open := none,
              m_out := st.m_out ++ [defLine d] }

/-- Modelled from the spec: a total candidate model evaluates a literal. -/
def evalLit (m : Nat → Bool) (l : Lit) : Bool := decide (m l.var = l.sign)

/-- Modelled from the spec: `check_model(m)` — iterate every live clause and
confirm at least one literal true under `m`; report the first violated live
clause on failure, `none` on success. -/
def DratState.check_model (st : DratState) (m : Nat → Bool) : Option Clause :=
  (liveClauses st).find? (fun C => !C.any (evalLit m))

/-- Public operations of the layer, for statements about operation sequences. -/
inductive Op where
  | add (c : Clause) (s : Status)
  | del (c : Clause)
  | verifyOp (c : Clause)
  | boolDef (v : Nat) (n : Nat)
  | defBegin (n : Nat) (name : String)
  | defAddArg (a : Nat)
  | defEnd

/-- Interpretation of one public operation on the layer state. -/
def applyOp (st : DratState) : Op → DratState
  | Op.add c s => st.add c s
  | Op.del c => st.del c
  | Op.verifyOp c => (st.verify c).2
  | Op.boolDef v n => (st.bool_def v n).2
  | Op.defBegin n name => (st.def_begin n name).2
  | Op.defAddArg a => st.def_add_arg a
  | Op.defEnd => st.def_end

/-- Interpretation of a sequence of public operations. -/
def applyOps (st : DratState) : List Op → DratState
  | [] => st
  | op :: ops => applyOps (applyOp st op) ops

/-- The emission-only operations named by the determinism property. -/
def Op.isAddDel : Op → Bool
  | Op.add _ _ => true
  | Op.del _ => true
  | _ => false

/-- The four configuration switches read by `updt_config`. -/
structure Config where
  check_unsat : Bool
  check_sat : Bool
  check : Bool
  activity : Bool

/-- A fresh layer state over the given configuration and streams. -/
def initState (cfg : Config) (out bout : List String) : DratState :=
  { m_proof := [], m_units := [], m_assignment := fun _ => none,
    m_inconsistent := false, m_bool_def := fun _ => none,
    m_def_open := none, m_defs := [], m_out := out, m_bout := bout,
    m_check_unsat := cfg.check_unsat, m_check_sat := cfg.check_sat,
    m_check := cfg.check, m_activity := cfg.activity }

/-- A clause object as the overloads see it: a sized literal array
(`size()` and `begin()` of the header's `clause`). -/
structure ClauseObj where
  lits : List Lit

/-- The `size()` accessor of a clause object. -/
def ClauseObj.size (c : ClauseObj) : Nat := c.lits.length

/-- The `begin()` accessor: index-based access to the literal array. -/
def ClauseObj.beginFn (c : ClauseObj) : Nat → Lit := fun i => c.lits.getD i ⟨0, true⟩

/-- Modelled from the spec: the general array form `verify(n, c)` — the
literal sequence checked is the `n` literals read off the array. -/
def DratState.verifyArr (st : DratState) (n : Nat) (f : Nat → Lit) : Bool × DratState :=
  st.verify ((List.range n).map f)

/-- From the header: `verify(c)` delegates to `verify(c.size(), c.begin())`. -/
def DratState.verifyClause (st : DratState) (c : ClauseObj) : Bool × DratState :=
  st.verifyArr c.size c.beginFn

/-- From the header: `verify(l1, l2)` builds the array `{l1, l2}` and calls
the general form on it. -/
def DratState.verify2 (st : DratState) (l1 l2 : Lit) : Bool × DratState :=
  st.verifyArr 2 (fun i => [l1, l2].getD i ⟨0, true⟩)

/-- From the header: `verify(l1, l2, l3)` builds the array `{l1, l2, l3}` and
calls the general form on it. -/
def DratState.verify3 (st : DratState) (l1 l2 l3 : Lit) : Bool × DratState :=
  st.verifyArr 3 (fun i => [l1, l2, l3].getD i ⟨0, true⟩)

/-- Modelled from the spec: the general array form `contains(n, c)`. -/
def DratState.containsArr (st : DratState) (n : Nat) (f : Nat → Lit) : Bool :=
  st.contains ((List.range n).map f)

/-- From the header: `contains(c)` delegates to `contains(c.size(), c.begin())`. -/
def DratState.containsClause (st : DratState) (c : ClauseObj) : Bool :=
  st.containsArr c.size c.beginFn

/-- From the header: `contains(l1, l2)` on the array `{l1, l2}`. -/
def DratState.contains2 (st : DratState) (l1 l2 : Lit) : Bool :=
  st.containsArr 2 (fun i => [l1, l2].getD i ⟨0, true⟩)

/-- From the header: `contains(l1, l2, l3)` on the array `{l1, l2, l3}`. -/
def DratState.contains3 (st : DratState) (l1 l2 l3 : Lit) : Bool :=
  st.containsArr 3 (fun i => [l1, l2, l3].getD i ⟨0, true⟩)

/-! ### Semantics: unit-propagation derivability and models -/

/-- Literals derivable by unit propagation run to closure from the clause set
`F` and the base literals `base`: a base literal is derived, and a clause
literal is forced when the complements of all its other literals are derived. -/
inductive UPDerives (F : List Clause) (base : List Lit) : Lit → Prop
  | base (l : Lit) : l ∈ base → UPDerives F base l
  | unit (C : Clause) (l : Lit) : C ∈ F → l ∈ C →
      (∀ x, x ∈ C → x ≠ l → UPDerives F base x.negate) → UPDerives F base l

/-- Unit propagation to closure from the base literals yields a conflict:
some clause of the set has the complements of all its literals derived. -/
def UPConflict (F : List Clause) (base : List Lit) : Prop :=
  ∃ C, C ∈ F ∧ ∀ l, l ∈ C → UPDerives F base l.negate

/-- The negations of the literals of a candidate clause. -/
def negClause (c : Clause) : List Lit := c.map Lit.negate

/-- The reverse-unit-propagation validity criterion: the negations of the
candidate's literals are already contradictory, or propagating them to
closure against the clause set yields a conflict. -/
def RupValid (F : List Clause) (c : Clause) : Prop :=
  (∃ l, l ∈ c ∧ l.negate ∈ c) ∨ UPConflict F (negClause c)

/-- A total model satisfies a literal. -/
def SatLit (m : Nat → Bool) (l : Lit) : Prop := m l.var = l.sign

/-- A total model satisfies a clause: some literal is true. -/
def SatClause (m : Nat → Bool) (C : Clause) : Prop := ∃ l, l ∈ C ∧ SatLit m l

/-- The clause is a semantic consequence of the clause set. -/
def Implied (F : List Clause) (c : Clause) : Prop :=
  ∀ m : Nat → Bool, (∀ C, C ∈ F → SatClause m C) → SatClause m c

/-- The assignment induced by the trail alone (most recent entry first). -/
def trailAssign : List Lit → Nat → Option Bool
  | [], _ => none
  | l :: tr, v => if v = l.var then some l.sign else trailAssign tr v

/-- Well-formed propagation state: the assignment vector holds exactly the
trail entries, and no variable occurs twice on the trail. -/
def WfPs (ps : PropState) : Prop :=
  (∀ v, ps.assignment v = trailAssign ps.trail v) ∧ (ps.trail.map Lit.var).Nodup

/-- Count of unassigned variable occurrences, the propagation measure. -/
def unassignedCount (F : List Clause) (A : Assignment) : Nat :=
  (varsOf F).countP (fun v => decide (A v = none))

/-- The worked example of the specification: clause set `x` and `¬x ∨ y`,
with variable ids `x = 0`, `y = 1`. -/
def exProof : List (Clause × Status) :=
  [([⟨0, true⟩], Status.asserted), ([⟨0, false⟩, ⟨1, true⟩], Status.asserted)]

/-- A layer state holding the example clause set, outside any episode. -/
def exState : DratState :=
  { m_proof := exProof, m_units := [], m_assignment := fun _ => none,
    m_inconsistent := false, m_bool_def := fun _ => none, m_def_open := none,
    m_defs := [], m_out := [], m_bout := [],
    m_check_unsat := true, m_check_sat := true, m_check := true, m_activity := false }

/-- The example state with the terminal inconsistency flag set. -/
def exIncState : DratState := { exState with m_inconsistent := true }

/-- The candidate model `x := true, y := false` for the example clause set. -/
def exModel : Nat → Bool := fun v => decide (v = 0)

/-! ### Basic literal lemmas -/

theorem Lit.negate_var (l : Lit) : l.negate.var = l.var := rfl

theorem Lit.negate_negate (l : Lit) : l.negate.negate = l := by
  cases l with
  | mk v s => simp [Lit.negate]

theorem Lit.negate_ne (l : Lit) : l.negate ≠ l := by
  cases l with
  | mk v s => simp [Lit.negate]

theorem litIsTrue_iff {A : Assignment} {l : Lit} :
    litIsTrue A l = true ↔ A l.var = some l.sign := by
  simp [litIsTrue]

theorem litIsFalse_iff {A : Assignment} {l : Lit} :
    litIsFalse A l = true ↔ A l.var = some (!l.sign) := by
  simp [litIsFalse]

theorem litIsTrue_negate {A : Assignment} {l : Lit} :
    litIsTrue A l.negate = litIsFalse A l := by
  simp [litIsTrue, litIsFalse, Lit.negate]

theorem not_true_and_false {A : Assignment} {l : Lit} (h1 : litIsTrue A l = true)
    (h2 : litIsFalse A l = true) : False := by
  rw [litIsTrue_iff] at h1
  rw [litIsFalse_iff] at h2
  rw [h1] at h2
  cases l.sign <;> simp_all

theorem mem_negClause {c : Clause} {l : Lit} : l ∈ negClause c ↔ l.negate ∈ c := by
  constructor
  · intro h
    rcases List.mem_map.mp h with ⟨x, hx, hxl⟩
    rw [← hxl, Lit.negate_negate]
    exact hx
  · intro h
    have := List.mem_map_of_mem Lit.negate h
    rwa [Lit.negate_negate] at this

theorem negate_mem_negClause {c : Clause} {l : Lit} (h : l ∈ c) :
    l.negate ∈ negClause c := List.mem_map_of_mem Lit.negate h

/-! ### Characterizations of the propagation primitives -/

theorem falsified_iff {A : Assignment} {C : Clause} :
    falsified A C = true ↔ ∀ l ∈ C, litIsFalse A l = true := by
  simp [falsified, List.all_eq_true]

theorem hasConflict_iff {F : List Clause} {A : Assignment} :
    hasConflict F A = true ↔ ∃ C ∈ F, ∀ l ∈ C, litIsFalse A l = true := by
  simp [hasConflict, List.any_eq_true, falsified_iff]

theorem findUnit_some {A : Assignment} {C : Clause} {l : Lit}
    (h : findUnit A C = some l) :
    (∀ x ∈ C, litIsTrue A x = false) ∧ l ∈ C ∧ A l.var = none ∧
      ∀ x ∈ C, A x.var = none → x = l := by
  unfold findUnit at h
  cases hany : C.any (litIsTrue A) with
  | true => simp [hany] at h
  | false =>
    rw [hany] at h
    simp only [Bool.false_eq_true, if_false] at h
    have hnt : ∀ x ∈ C, litIsTrue A x = false := by
      intro x hx
      have := List.any_eq_false.mp hany x hx
      simpa using this
    cases hf : C.filter (fun x => decide (A x.var = none)) with
    | nil => rw [hf] at h; simp at h
    | cons hd tl =>
      rw [hf] at h
      by_cases hall : tl.all (fun x => decide (x = hd)) = true
      · have hdl : hd = l := by simpa [hall] using h
        subst hdl
        have hmem : hd ∈ C.filter (fun x => decide (A x.var = none)) := by
          rw [hf]; exact List.mem_cons_self hd tl
        rcases List.mem_filter.mp hmem with ⟨hmC, hpred⟩
        refine ⟨hnt, hmC, by simpa using hpred, ?_⟩
        intro x hx hxu
        have hxf : x ∈ C.filter (fun x => decide (A x.var = none)) :=
          List.mem_filter.mpr ⟨hx, by simpa using hxu⟩
        rw [hf] at hxf
        rcases List.mem_cons.mp hxf with h1 | h1
        · exact h1
        · have := List.all_eq_true.mp hall x h1
          simpa using this
      · simp [hall] at h

theorem findUnit_eq_some {A : Assignment} {C : Clause} {l : Lit}
    (hnt : ∀ x ∈ C, litIsTrue A x = false) (hl : l ∈ C) (hu : A l.var = none)
    (huniq : ∀ x ∈ C, A x.var = none → x = l) :
    findUnit A C = some l := by
  unfold findUnit
  have hany : C.any (litIsTrue A) = false := by
    apply List.any_eq_false.mpr
    intro x hx
    simp [hnt x hx]
  rw [hany]
  simp only [Bool.false_eq_true, if_false]
  have hlf : l ∈ C.filter (fun x => decide (A x.var = none)) :=
    List.mem_filter.mpr ⟨hl, by simpa using hu⟩
  cases hf : C.filter (fun x => decide (A x.var = none)) with
  | nil => rw [hf] at hlf; exact absurd hlf (List.not_mem_nil l)
  | cons hd tl =>
    have hdmem : hd ∈ C.filter (fun x => decide (A x.var = none)) := by
      rw [hf]; exact List.mem_cons_self hd tl
    rcases List.mem_filter.mp hdmem with ⟨hdC, hdpred⟩
    have hdl : hd = l := huniq hd hdC (by simpa using hdpred)
    have hall : tl.all (fun x => decide (x = hd)) = true := by
      apply List.all_eq_true.mpr
      intro x hx
      have hxmem : x ∈ C.filter (fun y => decide (A y.var = none)) := by
        rw [hf]; exact List.mem_cons_of_mem hd hx
      rcases List.mem_filter.mp hxmem with ⟨hxC, hxpred⟩
      have := huniq x hxC (by simpa using hxpred)
      simp [this, hdl]
    simp only [hdl] at hall
    simp [hall]
    refine ⟨?_, hdl⟩
    intro x hx
    have := List.all_eq_true.mp hall x hx
    simp only [hdl]
    simpa using this

theorem findUnitList_some {A : Assignment} :
    ∀ {F : List Clause} {l : Lit}, findUnitList A F = some l →
      ∃ C ∈ F, findUnit A C = some l := by
  intro F
  induction F with
  | nil => intro l h; simp [findUnitList] at h
  | cons C Cs ih =>
    intro l h
    unfold findUnitList at h
    cases hC : findUnit A C with
    | some x =>
      rw [hC] at h
      have : x = l := by simpa using h
      exact ⟨C, List.mem_cons_self C Cs, by rw [hC, this]⟩
    | none =>
      rw [hC] at h
      rcases ih h with ⟨D, hD, hfD⟩
      exact ⟨D, List.mem_cons_of_mem C hD, hfD⟩

theorem findUnitList_none {A : Assignment} :
    ∀ {F : List Clause}, findUnitList A F = none →
      ∀ C ∈ F, findUnit A C = none := by
  intro F
  induction F with
  | nil => intro _ C hC; exact absurd hC (List.not_mem_nil C)
  | cons D Ds ih =>
    intro h C hC
    unfold findUnitList at h
    cases hD : findUnit A D with
    | some x => rw [hD] at h; exact absurd h (by simp)
    | none =>
      rw [hD] at h
      rcases List.mem_cons.mp hC with h1 | h1
      · rw [h1]; exact hD
      · exact ih h C h1

/-! ### Assignment-phase lemmas -/

theorem assignLit_assignment (ps : PropState) (l : Lit) (v : Nat) :
    (assignLit ps l).assignment v =
      if v = l.var then some l.sign else ps.assignment v := rfl

theorem assignLit_preserve {ps : PropState} {l : Lit} {v : Nat} {b : Bool}
    (hl : ps.assignment l.var = none) (h : ps.assignment v = some b) :
    (assignLit ps l).assignment v = some b := by
  rw [assignLit_assignment]
  by_cases hv : v = l.var
  · subst hv; rw [hl] at h; exact absurd h (by simp)
  · rw [if_neg hv]; exact h

theorem assignLits_cons_unassigned {ps : PropState} {l : Lit} {ls : List Lit}
    (h : ps.assignment l.var = none) :
    assignLits ps (l :: ls) = assignLits (assignLit ps l) ls := by
  show (match ps.assignment l.var with
    | none => assignLits (assignLit ps l) ls
    | some b => if b = l.sign then assignLits ps ls else (true, ps)) =
      assignLits (assignLit ps l) ls
  rw [h]

theorem assignLits_cons_same {ps : PropState} {l : Lit} {ls : List Lit} {b : Bool}
    (h : ps.assignment l.var = some b) (hb : b = l.sign) :
    assignLits ps (l :: ls) = assignLits ps ls := by
  show (match ps.assignment l.var with
    | none => assignLits (assignLit ps l) ls
    | some b => if b = l.sign then assignLits ps ls else (true, ps)) =
      assignLits ps ls
  rw [h]
  simp [hb]

theorem assignLits_cons_diff {ps : PropState} {l : Lit} {ls : List Lit} {b : Bool}
    (h : ps.assignment l.var = some b) (hb : b ≠ l.sign) :
    assignLits ps (l :: ls) = (true, ps) := by
  show (match ps.assignment l.var with
    | none => assignLits (assignLit ps l) ls
    | some b => if b = l.sign then assignLits ps ls else (true, ps)) = (true, ps)
  rw [h]
  simp [hb]

theorem assignLits_preserve {v : Nat} {b : Bool} :
    ∀ (ls : List Lit) (ps : PropState), ps.assignment v = some b →
      ((assignLits ps ls).2).assignment v = some b := by
  intro ls
  induction ls with
  | nil => intro ps h; exact h
  | cons x xs ih =>
    intro ps h
    cases hx : ps.assignment x.var with
    | none =>
      rw [assignLits_cons_unassigned hx]
      exact ih (assignLit ps x) (assignLit_preserve hx h)
    | some bb =>
      by_cases hbb : bb = x.sign
      · rw [assignLits_cons_same hx hbb]; exact ih ps h
      · rw [assignLits_cons_diff hx hbb]; exact h

theorem assignLits_all_true :
    ∀ (ls : List Lit) (ps : PropState), (assignLits ps ls).1 = false →
      ∀ l ∈ ls, litIsTrue ((assignLits ps ls).2).assignment l = true := by
  intro ls
  induction ls with
  | nil => intro ps _ l hl; exact absurd hl (List.not_mem_nil l)
  | cons x xs ih =>
    intro ps hflag l hl
    cases hx : ps.assignment x.var with
    | none =>
      rw [assignLits_cons_unassigned hx] at hflag ⊢
      rcases List.mem_cons.mp hl with h1 | h1
      · subst h1
        rw [litIsTrue_iff]
        apply assignLits_preserve
        rw [assignLit_assignment, if_pos rfl]
      · exact ih (assignLit ps x) hflag l h1
    | some bb =>
      by_cases hbb : bb = x.sign
      · rw [assignLits_cons_same hx hbb] at hflag ⊢
        rcases List.mem_cons.mp hl with h1 | h1
        · subst h1
          rw [litIsTrue_iff]
          apply assignLits_preserve
          rw [hx, hbb]
        · exact ih ps hflag l h1
      · rw [assignLits_cons_diff hx hbb] at hflag
        exact absurd hflag (by simp)

theorem assignLits_from :
    ∀ (ls : List Lit) (ps : PropState), (assignLits ps ls).1 = false →
      ∀ (v : Nat) (b : Bool), ((assignLits ps ls).2).assignment v = some b →
        Lit.mk v b ∈ ls ∨ ps.assignment v = some b := by
  intro ls
  induction ls with
  | nil => intro ps _ v b h; exact Or.inr h
  | cons x xs ih =>
    intro ps hflag v b h
    cases hx : ps.assignment x.var with
    | none =>
      rw [assignLits_cons_unassigned hx] at hflag h
      rcases ih (assignLit ps x) hflag v b h with h1 | h1
      · exact Or.inl (List.mem_cons_of_mem x h1)
      · rw [assignLit_assignment] at h1
        by_cases hv : v = x.var
        · rw [if_pos hv] at h1
          have hb : b = x.sign := by simpa using h1.symm
          left
          have : Lit.mk v b = x := by rw [hv, hb]
          rw [this]
          exact List.mem_cons_self x xs
        · rw [if_neg hv] at h1; exact Or.inr h1
    | some bb =>
      by_cases hbb : bb = x.sign
      · rw [assignLits_cons_same hx hbb] at hflag h
        rcases ih ps hflag v b h with h1 | h1
        · exact Or.inl (List.mem_cons_of_mem x h1)
        · exact Or.inr h1
      · rw [assignLits_cons_diff hx hbb] at hflag
        exact absurd hflag (by simp)

theorem assignLits_true_pair {S : List Lit} :
    ∀ (ls : List Lit) (ps : PropState),
      (∀ v b, ps.assignment v = some b → Lit.mk v b ∈ S) →
      (∀ l ∈ ls, l ∈ S) → (assignLits ps ls).1 = true →
      ∃ l, l ∈ S ∧ l.negate ∈ S := by
  intro ls
  induction ls with
  | nil => intro ps _ _ h; simp [assignLits] at h
  | cons x xs ih =>
    intro ps hP hsub hflag
    cases hx : ps.assignment x.var with
    | none =>
      rw [assignLits_cons_unassigned hx] at hflag
      apply ih (assignLit ps x) ?_ (fun l hl => hsub l (List.mem_cons_of_mem x hl)) hflag
      intro v b h
      rw [assignLit_assignment] at h
      by_cases hv : v = x.var
      · rw [if_pos hv] at h
        have hb : b = x.sign := by simpa using h.symm
        have : Lit.mk v b = x := by rw [hv, hb]
        rw [this]
        exact hsub x (List.mem_cons_self x xs)
      · rw [if_neg hv] at h; exact hP v b h
    | some bb =>
      by_cases hbb : bb = x.sign
      · rw [assignLits_cons_same hx hbb] at hflag
        exact ih ps hP (fun l hl => hsub l (List.mem_cons_of_mem x hl)) hflag
      · refine ⟨x, hsub x (List.mem_cons_self x xs), ?_⟩
        have hbb2 : bb = !x.sign := by
          cases bb <;> cases hs : x.sign <;> simp_all
        have : Lit.mk x.var bb = x.negate := by rw [hbb2]; rfl
        rw [← this]
        exact hP x.var bb hx

theorem assignLits_pair_conflict {ls : List Lit} {ps : PropState} {l : Lit}
    (h1 : l ∈ ls) (h2 : l.negate ∈ ls) : (assignLits ps ls).1 = true := by
  cases hflag : (assignLits ps ls).1 with
  | true => rfl
  | false =>
    exfalso
    have ht1 := assignLits_all_true ls ps hflag l h1
    have ht2 := assignLits_all_true ls ps hflag l.negate h2
    rw [litIsTrue_negate] at ht2
    exact not_true_and_false ht1 ht2

/-! ### Propagation lemmas -/

theorem propagateN_zero (F : List Clause) (ps : PropState) : propagateN F 0 ps = ps := rfl

theorem propagateN_succ_conflict {F : List Clause} {ps : PropState} {fuel : Nat}
    (h : hasConflict F ps.assignment = true) : propagateN F (fuel + 1) ps = ps := by
  simp [propagateN, h]

theorem propagateN_succ_unit {F : List Clause} {ps : PropState} {fuel : Nat} {l : Lit}
    (hc : hasConflict F ps.assignment = false)
    (hu : findUnitList ps.assignment F = some l) :
    propagateN F (fuel + 1) ps = propagateN F fuel (assignLit ps l) := by
  simp [propagateN, hc, hu]

theorem propagateN_succ_sat {F : List Clause} {ps : PropState} {fuel : Nat}
    (hc : hasConflict F ps.assignment = false)
    (hu : findUnitList ps.assignment F = none) :
    propagateN F (fuel + 1) ps = ps := by
  simp [propagateN, hc, hu]

theorem propagateN_preserve {F : List Clause} {v : Nat} {b : Bool} :
    ∀ (fuel : Nat) (ps : PropState), ps.assignment v = some b →
      (propagateN F fuel ps).assignment v = some b := by
  intro fuel
  induction fuel with
  | zero => intro ps h; rw [propagateN_zero]; exact h
  | succ n ih =>
    intro ps h
    cases hc : hasConflict F ps.assignment with
    | true => rw [propagateN_succ_conflict hc]; exact h
    | false =>
      cases hu : findUnitList ps.assignment F with
      | some l =>
        rw [propagateN_succ_unit hc hu]
        rcases findUnitList_some hu with ⟨C, _, hfu⟩
        rcases findUnit_some hfu with ⟨_, _, hlun, _⟩
        exact ih (assignLit ps l) (assignLit_preserve hlun h)
      | none => rw [propagateN_succ_sat hc hu]; exact h

theorem propagateN_sound {F : List Clause} {base : List Lit} :
    ∀ (fuel : Nat) (ps : PropState),
      (∀ v b, ps.assignment v = some b → UPDerives F base (Lit.mk v b)) →
      ∀ v b, (propagateN F fuel ps).assignment v = some b →
        UPDerives F base (Lit.mk v b) := by
  intro fuel
  induction fuel with
  | zero => intro ps hP v b h; rw [propagateN_zero] at h; exact hP v b h
  | succ n ih =>
    intro ps hP v b h
    cases hc : hasConflict F ps.assignment with
    | true => rw [propagateN_succ_conflict hc] at h; exact hP v b h
    | false =>
      cases hu : findUnitList ps.assignment F with
      | some l =>
        rw [propagateN_succ_unit hc hu] at h
        rcases findUnitList_some hu with ⟨C, hCF, hfu⟩
        rcases findUnit_some hfu with ⟨hnt, hlC, hlun, huniq⟩
        have hld : UPDerives F base l := by
          apply UPDerives.unit C l hCF hlC
          intro x hxC hxl
          cases hx : ps.assignment x.var with
          | none => exact absurd (huniq x hxC hx) hxl
          | some bb =>
            have hxf : bb = !x.sign := by
              have := hnt x hxC
              rw [litIsTrue] at this
              have hne : ps.assignment x.var ≠ some x.sign := by
                intro hcontra
                rw [hcontra] at this
                simp at this
              rw [hx] at hne
              cases bb <;> cases hs : x.sign <;> simp_all
            have : x.negate = Lit.mk x.var bb := by rw [hxf]; rfl
            rw [this]
            exact hP x.var bb hx
        apply ih (assignLit ps l) ?_ v b h
        intro w c hw
        rw [assignLit_assignment] at hw
        by_cases hwv : w = l.var
        · rw [if_pos hwv] at hw
          have hcs : c = l.sign := by simpa using hw.symm
          have : Lit.mk w c = l := by rw [hwv, hcs]
          rw [this]
          exact hld
        · rw [if_neg hwv] at hw
          exact hP w c hw
      | none => rw [propagateN_succ_sat hc hu] at h; exact hP v b h

theorem exec_conflict_sound {F : List Clause} {base : List Lit} {A : Assignment}
    (hP : ∀ v b, A v = some b → UPDerives F base (Lit.mk v b))
    (h : hasConflict F A = true) : UPConflict F base := by
  rcases hasConflict_iff.mp h with ⟨C, hCF, hall⟩
  refine ⟨C, hCF, ?_⟩
  intro l hl
  have := (litIsFalse_iff).mp (hall l hl)
  have hder := hP l.var (!l.sign) this
  have : Lit.mk l.var (!l.sign) = l.negate := rfl
  rwa [this] at hder

theorem countP_lt_of {α : Type} {p q : α → Bool} :
    ∀ (L : List α), (∀ x ∈ L, p x = true → q x = true) →
      ∀ x0 ∈ L, p x0 = false → q x0 = true → L.countP p < L.countP q := by
  intro L
  induction L with
  | nil => intro _ x0 hx0; exact absurd hx0 (List.not_mem_nil x0)
  | cons a l ih =>
    intro himp x0 hx0 hp hq
    rw [List.countP_cons, List.countP_cons]
    by_cases hmem : x0 ∈ l
    · have hlt := ih (fun x hx => himp x (List.mem_cons_of_mem a hx)) x0 hmem hp hq
      have hle : (if p a then 1 else 0) ≤ (if q a then 1 else 0) := by
        by_cases hpa : p a = true
        · rw [if_pos hpa, if_pos (himp a (List.mem_cons_self a l) hpa)]
        · have hpa2 : p a = false := by
            cases hpab : p a
            · rfl
            · exact absurd hpab hpa
          rw [hpa2, if_neg (show ¬(false = true) by simp)]
          omega
      omega
    · have hax : x0 = a := by
        rcases List.mem_cons.mp hx0 with h1 | h1
        · exact h1
        · exact absurd h1 hmem
      have hle : l.countP p ≤ l.countP q :=
        List.countP_mono_left (fun x hx hpx => himp x (List.mem_cons_of_mem a hx) hpx)
      rw [← hax, hp, hq, if_neg (show ¬(false = true) by simp), if_pos rfl]
      omega

theorem unassignedCount_lt {F : List Clause} {A : Assignment} {l : Lit}
    (hv : l.var ∈ varsOf F) (hA : A l.var = none) :
    (varsOf F).countP
        (fun v => decide ((fun u => if u = l.var then some l.sign else A u) v = none)) <
      unassignedCount F A := by
  apply countP_lt_of (varsOf F) ?_ l.var hv ?_ ?_
  · intro x _ hx
    simp only [decide_eq_true_eq] at hx ⊢
    by_cases hxl : x = l.var
    · rw [if_pos hxl] at hx; exact absurd hx (by simp)
    · rw [if_neg hxl] at hx; exact hx
  · simp
  · simp [hA]

theorem propagateN_saturated {F : List Clause} :
    ∀ (fuel : Nat) (ps : PropState), unassignedCount F ps.assignment < fuel →
      hasConflict F (propagateN F fuel ps).assignment = true ∨
        findUnitList (propagateN F fuel ps).assignment F = none := by
  intro fuel
  induction fuel with
  | zero => intro ps h; exact absurd h (Nat.not_lt_zero _)
  | succ n ih =>
    intro ps h
    cases hc : hasConflict F ps.assignment with
    | true => rw [propagateN_succ_conflict hc]; exact Or.inl hc
    | false =>
      cases hu : findUnitList ps.assignment F with
      | some l =>
        rw [propagateN_succ_unit hc hu]
        apply ih
        rcases findUnitList_some hu with ⟨C, hCF, hfu⟩
        rcases findUnit_some hfu with ⟨_, hlC, hlun, _⟩
        have hvmem : l.var ∈ varsOf F :=
          List.mem_flatMap_of_mem hCF (List.mem_map_of_mem Lit.var hlC)
        have hlt := unassignedCount_lt hvmem hlun
        have : unassignedCount F (assignLit ps l).assignment =
            (varsOf F).countP
              (fun v => decide ((fun u => if u = l.var then some l.sign else ps.assignment u) v = none)) := rfl
        rw [this]
        omega
      | none => rw [propagateN_succ_sat hc hu]; exact Or.inr hu

theorem derives_true_of_saturated {F : List Clause} {base : List Lit} {A : Assignment}
    (hc : hasConflict F A = false) (hu : findUnitList A F = none)
    (hbase : ∀ l ∈ base, litIsTrue A l = true) :
    ∀ x, UPDerives F base x → litIsTrue A x = true := by
  intro x hx
  induction hx with
  | base l hl => exact hbase l hl
  | unit C l hCF hlC _ ih =>
    have hfalse : ∀ x ∈ C, x ≠ l → litIsFalse A x = true := by
      intro y h1 h2
      rw [← litIsTrue_negate]
      exact ih y h1 h2
    cases hAl : A l.var with
    | some b =>
      by_cases hb : b = l.sign
      · rw [litIsTrue_iff, hAl, hb]
      · exfalso
        have hlf : litIsFalse A l = true := by
          rw [litIsFalse_iff, hAl]
          cases b <;> cases hs : l.sign <;> simp_all
        have hfals : falsified A C = true := by
          apply falsified_iff.mpr
          intro y hy
          by_cases hyl : y = l
          · rw [hyl]; exact hlf
          · exact hfalse y hy hyl
        have : hasConflict F A = true :=
          List.any_eq_true.mpr ⟨C, hCF, hfals⟩
        rw [this] at hc
        exact absurd hc (by simp)
    | none =>
      exfalso
      have hfu : findUnit A C = some l := by
        apply findUnit_eq_some ?_ hlC hAl
        · intro y hy hyu
          by_cases hyl : y = l
          · exact hyl
          · exfalso
            have := hfalse y hy hyl
            rw [litIsFalse_iff] at this
            rw [hyu] at this
            exact absurd this (by simp)
        · intro y hy
          by_cases hyl : y = l
          · rw [hyl, litIsTrue]
            simp [hAl]
          · have hyf := hfalse y hy hyl
            cases hyt : litIsTrue A y with
            | false => rfl
            | true => exact (not_true_and_false hyt hyf).elim
      have := findUnitList_none hu C hCF
      rw [hfu] at this
      exact absurd this (by simp)

/-! ### The RUP check agrees with the derivational criterion -/

theorem is_drupCore_conflict {F : List Clause} {ps ps1 : PropState} {c : Clause}
    (h : assignLits ps (c.map Lit.negate) = (true, ps1)) :
    is_drupCore F ps c = (true, ps1) := by
  simp [is_drupCore, h]

theorem is_drupCore_run {F : List Clause} {ps ps1 : PropState} {c : Clause}
    (h : assignLits ps (c.map Lit.negate) = (false, ps1)) :
    is_drupCore F ps c =
      (hasConflict F (propagateN F (fuelFor F) ps1).assignment,
        propagateN F (fuelFor F) ps1) := by
  simp [is_drupCore, h]

theorem is_drupB_sound {F : List Clause} {c : Clause} (h : is_drupB F c = true) :
    RupValid F c := by
  unfold is_drupB at h
  rcases hassign : assignLits emptyProp (c.map Lit.negate) with ⟨flag, ps1⟩
  cases flag with
  | true =>
    left
    have hpair := assignLits_true_pair (S := negClause c) (c.map Lit.negate) emptyProp
      (fun v b hvb => absurd hvb (by simp [emptyProp]))
      (fun l hl => hl)
      (by rw [hassign])
    rcases hpair with ⟨l, hS, hnS⟩
    exact ⟨l.negate, mem_negClause.mp hS, mem_negClause.mp hnS⟩
  | false =>
    right
    rw [is_drupCore_run hassign] at h
    have hinv1 : ∀ v b, ps1.assignment v = some b →
        UPDerives F (negClause c) (Lit.mk v b) := by
      intro v b hvb
      have hfrom := assignLits_from (c.map Lit.negate) emptyProp
        (by rw [hassign]) v b (by rw [hassign]; exact hvb)
      rcases hfrom with h1 | h1
      · exact UPDerives.base _ h1
      · exact absurd h1 (by simp [emptyProp])
    exact exec_conflict_sound (propagateN_sound (fuelFor F) ps1 hinv1) h

theorem is_drupB_complete {F : List Clause} {c : Clause} (h : RupValid F c) :
    is_drupB F c = true := by
  unfold is_drupB
  rcases hassign : assignLits emptyProp (c.map Lit.negate) with ⟨flag, ps1⟩
  cases flag with
  | true => rw [is_drupCore_conflict hassign]
  | false =>
    rw [is_drupCore_run hassign]
    show hasConflict F (propagateN F (fuelFor F) ps1).assignment = true
    rcases h with ⟨l, hl, hln⟩ | hconf
    · exfalso
      have ha := @assignLits_pair_conflict (List.map Lit.negate c) emptyProp (Lit.negate l)
        (List.mem_map_of_mem Lit.negate hl) (List.mem_map_of_mem Lit.negate hln)
      rw [hassign] at ha
      exact absurd ha (by simp)
    · by_cases hconfl :
        hasConflict F (propagateN F (fuelFor F) ps1).assignment = true
      · exact hconfl
      · exfalso
        have hsat := propagateN_saturated (F := F) (fuelFor F) ps1
          (Nat.lt_succ_of_le (List.countP_le_length _))
        rcases hsat with hcf | hun
        · exact hconfl hcf
        · have hcf : hasConflict F (propagateN F (fuelFor F) ps1).assignment = false := by
            cases hx : hasConflict F (propagateN F (fuelFor F) ps1).assignment with
            | false => rfl
            | true => exact absurd hx hconfl
          have hbase : ∀ l ∈ negClause c,
              litIsTrue (propagateN F (fuelFor F) ps1).assignment l = true := by
            intro l hl
            have h1 := assignLits_all_true (c.map Lit.negate) emptyProp
              (by rw [hassign]) l hl
            rw [hassign] at h1
            rw [litIsTrue_iff] at h1 ⊢
            exact propagateN_preserve _ ps1 h1
          have hder := derives_true_of_saturated hcf hun hbase
          rcases hconf with ⟨C, hCF, hall⟩
          have hfals : falsified (propagateN F (fuelFor F) ps1).assignment C = true := by
            apply falsified_iff.mpr
            intro l hl
            have := hder l.negate (hall l hl)
            rwa [litIsTrue_negate] at this
          exact hconfl (List.any_eq_true.mpr ⟨C, hCF, hfals⟩)

theorem is_drupB_iff {F : List Clause} {c : Clause} :
    is_drupB F c = true ↔ RupValid F c :=
  ⟨is_drupB_sound, is_drupB_complete⟩

/-! ### Model soundness of unit propagation -/

theorem SatLit_negate_iff {m : Nat → Bool} {l : Lit} :
    SatLit m l.negate ↔ ¬ SatLit m l := by
  cases hm : m l.var <;> cases hs : l.sign <;>
    simp [SatLit, Lit.negate, hm, hs]

theorem UPDerives_model {F : List Clause} {base : List Lit} {m : Nat → Bool}
    (hF : ∀ C ∈ F, SatClause m C) (hb : ∀ l ∈ base, SatLit m l) :
    ∀ x, UPDerives F base x → SatLit m x := by
  intro x hx
  induction hx with
  | base l hl => exact hb l hl
  | unit C l hCF hlC _ ih =>
    by_contra hnl
    rcases hF C hCF with ⟨y, hyC, hy⟩
    by_cases hyl : y = l
    · exact hnl (hyl ▸ hy)
    · have hneg := ih y hyC hyl
      exact (SatLit_negate_iff.mp hneg) hy

theorem RupValid_implied {F : List Clause} {c : Clause} (h : RupValid F c) :
    Implied F c := by
  intro m hF
  by_contra hns
  have hnone : ∀ l ∈ c, ¬ SatLit m l := fun l hl hs => hns ⟨l, hl, hs⟩
  have hneg : ∀ l ∈ negClause c, SatLit m l := by
    intro l hl
    have hlc := mem_negClause.mp hl
    have h1 : ¬ SatLit m l.negate := hnone l.negate hlc
    by_contra h2
    have : SatLit m l.negate := by
      rw [SatLit_negate_iff]
      exact h2
    exact h1 this
  rcases h with ⟨l, hl, hln⟩ | hconf
  · have h1 := hnone l hl
    have h2 := hnone l.negate hln
    rw [SatLit_negate_iff] at h2
    exact h2 h1
  · rcases hconf with ⟨C, hCF, hall⟩
    rcases hF C hCF with ⟨y, hyC, hy⟩
    have := UPDerives_model hF hneg y.negate (hall y hyC)
    exact (SatLit_negate_iff.mp this) hy

/-! ### RAT on any pivot preserves RUP validity -/

theorem UPDerives_cut {F : List Clause} {b1 b2 : List Lit}
    (hb : ∀ l ∈ b1, UPDerives F b2 l) :
    ∀ x, UPDerives F b1 x → UPDerives F b2 x := by
  intro x hx
  induction hx with
  | base l hl => exact hb l hl
  | unit C l hCF hlC _ ih => exact UPDerives.unit C l hCF hlC ih

theorem UPConflict_cut {F : List Clause} {b1 b2 : List Lit}
    (hb : ∀ l ∈ b1, UPDerives F b2 l) (h : UPConflict F b1) : UPConflict F b2 := by
  rcases h with ⟨C, hCF, hall⟩
  exact ⟨C, hCF, fun l hl => UPDerives_cut hb _ (hall l hl)⟩

theorem mem_resolvent_left {c d : Clause} {pivot x : Lit}
    (hx : x ∈ c) (hne : x ≠ pivot) : x ∈ resolvent c pivot d :=
  List.mem_append_left _ (List.mem_filter.mpr ⟨hx, by simp [hne]⟩)

theorem mem_resolvent_right {c d : Clause} {pivot x : Lit}
    (hx : x ∈ d) (hne : x ≠ pivot.negate) : x ∈ resolvent c pivot d :=
  List.mem_append_right _ (List.mem_filter.mpr ⟨hx, by simp [hne]⟩)

theorem RupValid_resolvent {F : List Clause} {c d : Clause} {pivot : Lit}
    (hd : d ∈ F) (hneg : pivot.negate ∈ d) (h : RupValid F c) :
    RupValid F (resolvent c pivot d) := by
  rcases h with ⟨l, hl, hln⟩ | hconf
  · by_cases hpc : pivot.negate ∈ c
    · right
      refine ⟨d, hd, ?_⟩
      intro y hy
      by_cases hyp : y = pivot.negate
      · have hyr : y ∈ resolvent c pivot d := by
          rw [hyp]
          exact mem_resolvent_left hpc (Lit.negate_ne pivot)
        apply UPDerives.base
        rw [mem_negClause, Lit.negate_negate]
        exact hyr
      · exact UPDerives.base _ (negate_mem_negClause (mem_resolvent_right hy hyp))
    · left
      have h1 : l ≠ pivot := fun he => hpc (he ▸ hln)
      have h2 : l.negate ≠ pivot := by
        intro he
        apply hpc
        have : pivot.negate = l := by rw [← he, Lit.negate_negate]
        rw [this]
        exact hl
      exact ⟨l, mem_resolvent_left hl h1, mem_resolvent_left hln h2⟩
  · right
    apply UPConflict_cut ?_ hconf
    intro x hx
    rcases List.mem_map.mp hx with ⟨y, hyc, hyx⟩
    by_cases hyp : y = pivot
    · rw [← hyx, hyp]
      apply UPDerives.unit d pivot.negate hd hneg
      intro z hz hznp
      exact UPDerives.base _ (negate_mem_negClause (mem_resolvent_right hz hznp))
    · rw [← hyx]
      exact UPDerives.base _ (negate_mem_negClause (mem_resolvent_left hyc hyp))

theorem is_dratB_of_is_drupB {F : List Clause} {c : Clause} {pos : Nat}
    (h : is_drupB F c = true) : is_dratB F c pos = true := by
  unfold is_dratB
  apply List.all_eq_true.mpr
  intro d hdF
  by_cases hneg : (c.getD pos ⟨0, true⟩).negate ∈ d
  · rw [if_pos hneg]
    exact is_drupB_complete (RupValid_resolvent hdF hneg (is_drupB_sound h))
  · rw [if_neg hneg]

/-! ### Trail discipline and unwinding -/

theorem trailAssign_eq_none :
    ∀ {tr : List Lit} {v : Nat}, trailAssign tr v = none ↔ v ∉ tr.map Lit.var := by
  intro tr
  induction tr with
  | nil => intro v; simp [trailAssign]
  | cons l tr ih =>
    intro v
    by_cases hv : v = l.var
    · simp [trailAssign, hv]
    · simp [trailAssign, hv, ih]

theorem wf_emptyProp : WfPs emptyProp := by
  constructor
  · intro v; rfl
  · simp [emptyProp]

theorem wf_assignLit {ps : PropState} {l : Lit} (h : WfPs ps)
    (hun : ps.assignment l.var = none) : WfPs (assignLit ps l) := by
  obtain ⟨hinv, hnd⟩ := h
  constructor
  · intro v
    rw [assignLit_assignment]
    show _ = trailAssign (l :: ps.trail) v
    by_cases hv : v = l.var <;> simp [trailAssign, hv, hinv v]
  · show ((l :: ps.trail).map Lit.var).Nodup
    simp only [List.map_cons, List.nodup_cons]
    refine ⟨?_, hnd⟩
    rw [← trailAssign_eq_none, ← hinv l.var]
    exact hun

theorem wf_assignLits :
    ∀ (ls : List Lit) (ps : PropState), WfPs ps → WfPs ((assignLits ps ls).2) := by
  intro ls
  induction ls with
  | nil => intro ps h; exact h
  | cons x xs ih =>
    intro ps h
    cases hx : ps.assignment x.var with
    | none =>
      rw [assignLits_cons_unassigned hx]
      exact ih (assignLit ps x) (wf_assignLit h hx)
    | some bb =>
      by_cases hbb : bb = x.sign
      · rw [assignLits_cons_same hx hbb]; exact ih ps h
      · rw [assignLits_cons_diff hx hbb]; exact h

theorem wf_propagateN {F : List Clause} :
    ∀ (fuel : Nat) (ps : PropState), WfPs ps → WfPs (propagateN F fuel ps) := by
  intro fuel
  induction fuel with
  | zero => intro ps h; exact h
  | succ n ih =>
    intro ps h
    cases hc : hasConflict F ps.assignment with
    | true => rw [propagateN_succ_conflict hc]; exact h
    | false =>
      cases hu : findUnitList ps.assignment F with
      | some l =>
        rw [propagateN_succ_unit hc hu]
        rcases findUnitList_some hu with ⟨C, _, hfu⟩
        rcases findUnit_some hfu with ⟨_, _, hlun, _⟩
        exact ih (assignLit ps l) (wf_assignLit h hlun)
      | none => rw [propagateN_succ_sat hc hu]; exact h

theorem wf_is_drupCore {F : List Clause} {ps : PropState} {c : Clause}
    (h : WfPs ps) : WfPs (is_drupCore F ps c).2 := by
  rcases hassign : assignLits ps (c.map Lit.negate) with ⟨flag, ps1⟩
  have hps1 : WfPs ps1 := by
    have := wf_assignLits (c.map Lit.negate) ps h
    rwa [hassign] at this
  cases flag with
  | true => rw [is_drupCore_conflict hassign]; exact hps1
  | false => rw [is_drupCore_run hassign]; exact wf_propagateN _ _ hps1

theorem undoOne_cons {ps : PropState} {l : Lit} {tr : List Lit} (h : ps.trail = l :: tr) :
    undoOne ps = ⟨fun v => if v = l.var then none else ps.assignment v, tr⟩ := by
  unfold undoOne
  rw [h]

theorem unwind_all :
    ∀ (tr : List Lit) (ps : PropState), ps.trail = tr → WfPs ps →
      unwindN tr.length ps = emptyProp := by
  intro tr
  induction tr with
  | nil =>
    intro ps htr hwf
    obtain ⟨hinv, _⟩ := hwf
    show unwindN 0 ps = emptyProp
    cases ps with
    | mk A t =>
      simp only at htr
      subst htr
      show (⟨A, []⟩ : PropState) = emptyProp
      unfold emptyProp
      congr 1
      funext v
      exact hinv v
  | cons l tr ih =>
    intro ps htr hwf
    obtain ⟨hinv, hnd⟩ := hwf
    show unwindN (tr.length + 1) ps = emptyProp
    have hstep : unwindN (tr.length + 1) ps = unwindN tr.length (undoOne ps) := rfl
    rw [hstep, undoOne_cons htr]
    have hnd2 : ((l :: tr).map Lit.var).Nodup := by rw [← htr]; exact hnd
    rw [List.map_cons, List.nodup_cons] at hnd2
    apply ih _ rfl
    constructor
    · intro v
      show (if v = l.var then none else ps.assignment v) = trailAssign tr v
      by_cases hv : v = l.var
      · rw [if_pos hv, hv]
        exact (trailAssign_eq_none.mpr hnd2.1).symm
      · rw [if_neg hv, hinv v, htr]
        show trailAssign (l :: tr) v = trailAssign tr v
        simp [trailAssign, hv]
    · exact hnd2.2

/-! ### The layer-level checks reduce to the pure checks and restore state -/

theorem DratState.is_drup_eq (st : DratState) (c : Clause) :
    st.is_drup c =
      ((is_drupCore (liveClauses st) ⟨st.m_assignment, st.m_units⟩ c).1,
        { st with
          m_assignment :=
            (unwindN
              ((is_drupCore (liveClauses st) ⟨st.m_assignment, st.m_units⟩ c).2.trail.length -
                st.m_units.length)
              (is_drupCore (liveClauses st) ⟨st.m_assignment, st.m_units⟩ c).2).assignment
          m_units :=
            (unwindN
              ((is_drupCore (liveClauses st) ⟨st.m_assignment, st.m_units⟩ c).2.trail.length -
                st.m_units.length)
              (is_drupCore (liveClauses st) ⟨st.m_assignment, st.m_units⟩ c).2).trail }) := rfl

theorem initProp_eq_empty {st : DratState} (h1 : ∀ v, st.m_assignment v = none)
    (h2 : st.m_units = []) : (⟨st.m_assignment, st.m_units⟩ : PropState) = emptyProp := by
  rw [funext h1, h2]
  rfl

theorem is_drup_fst_pure {st : DratState} {c : Clause}
    (h1 : ∀ v, st.m_assignment v = none) (h2 : st.m_units = []) :
    (st.is_drup c).1 = is_drupB (liveClauses st) c := by
  rw [DratState.is_drup_eq, initProp_eq_empty h1 h2]
  rfl

theorem is_drup_restores {st : DratState} {c : Clause}
    (h1 : ∀ v, st.m_assignment v = none) (h2 : st.m_units = []) :
    (st.is_drup c).2 = st := by
  rw [DratState.is_drup_eq, initProp_eq_empty h1 h2]
  have hkey : unwindN
      ((is_drupCore (liveClauses st) emptyProp c).2.trail.length - st.m_units.length)
      (is_drupCore (liveClauses st) emptyProp c).2 = emptyProp := by
    rw [h2]
    show unwindN ((is_drupCore (liveClauses st) emptyProp c).2.trail.length - 0) _ = _
    rw [Nat.sub_zero]
    exact unwind_all _ _ rfl (wf_is_drupCore wf_emptyProp)
  show ({ st with
      m_assignment := (unwindN _ (is_drupCore (liveClauses st) emptyProp c).2).assignment
      m_units := (unwindN _ (is_drupCore (liveClauses st) emptyProp c).2).trail } : DratState) = st
  rw [hkey]
  show ({ st with m_assignment := fun _ => none, m_units := [] } : DratState) = st
  rw [← funext h1, ← h2]

theorem checkResolvents_cons_mem {c d : Clause} {piv : Lit} {ds : List Clause}
    {st : DratState} (h : piv.negate ∈ d) :
    checkResolvents c piv (d :: ds) st =
      (if (st.is_drup (resolvent c piv d)).1 = true
        then checkResolvents c piv ds (st.is_drup (resolvent c piv d)).2
        else (false, (st.is_drup (resolvent c piv d)).2)) := by
  simp only [checkResolvents]
  rw [if_pos h]

theorem checkResolvents_cons_not {c d : Clause} {piv : Lit} {ds : List Clause}
    {st : DratState} (h : ¬ piv.negate ∈ d) :
    checkResolvents c piv (d :: ds) st = checkResolvents c piv ds st := by
  simp only [checkResolvents]
  rw [if_neg h]

theorem checkResolvents_restores {c : Clause} {piv : Lit} :
    ∀ (ds : List Clause) (st : DratState), (∀ v, st.m_assignment v = none) →
      st.m_units = [] → (checkResolvents c piv ds st).2 = st := by
  intro ds
  induction ds with
  | nil => intro st _ _; rfl
  | cons d ds ih =>
    intro st h1 h2
    by_cases hmem : piv.negate ∈ d
    · rw [checkResolvents_cons_mem hmem]
      have hr2 : (st.is_drup (resolvent c piv d)).2 = st := is_drup_restores h1 h2
      by_cases hr1 : (st.is_drup (resolvent c piv d)).1 = true
      · rw [if_pos hr1, hr2]
        exact ih st h1 h2
      · rw [if_neg hr1]
        exact hr2
    · rw [checkResolvents_cons_not hmem]
      exact ih st h1 h2

theorem checkResolvents_true {c : Clause} {piv : Lit} :
    ∀ (ds : List Clause) (st : DratState), (∀ v, st.m_assignment v = none) →
      st.m_units = [] →
      (∀ d ∈ ds, piv.negate ∈ d → is_drupB (liveClauses st) (resolvent c piv d) = true) →
      checkResolvents c piv ds st = (true, st) := by
  intro ds
  induction ds with
  | nil => intro st _ _ _; rfl
  | cons d ds ih =>
    intro st h1 h2 hall
    by_cases hmem : piv.negate ∈ d
    · rw [checkResolvents_cons_mem hmem]
      have hr1 : (st.is_drup (resolvent c piv d)).1 = true := by
        rw [is_drup_fst_pure h1 h2]
        exact hall d (List.mem_cons_self d ds) hmem
      rw [if_pos hr1, is_drup_restores h1 h2]
      exact ih st h1 h2 (fun e he hme => hall e (List.mem_cons_of_mem d he) hme)
    · rw [checkResolvents_cons_not hmem]
      exact ih st h1 h2 (fun e he hme => hall e (List.mem_cons_of_mem d he) hme)

theorem is_drat_pos_restores {st : DratState} {c : Clause} {pos : Nat}
    (h1 : ∀ v, st.m_assignment v = none) (h2 : st.m_units = []) :
    (st.is_drat_pos c pos).2 = st :=
  checkResolvents_restores (liveClauses st) st h1 h2

theorem is_dratB_all {F : List Clause} {c : Clause} {pos : Nat}
    (h : ∀ d ∈ F, (c.getD pos ⟨0, true⟩).negate ∈ d →
      is_drupB F (resolvent c (c.getD pos ⟨0, true⟩) d) = true) :
    is_dratB F c pos = true := by
  unfold is_dratB
  apply List.all_eq_true.mpr
  intro d hd
  by_cases hm : (c.getD pos ⟨0, true⟩).negate ∈ d
  · rw [if_pos hm]; exact h d hd hm
  · rw [if_neg hm]

theorem is_drat_pos_true {st : DratState} {c : Clause} {pos : Nat}
    (h1 : ∀ v, st.m_assignment v = none) (h2 : st.m_units = [])
    (h : ∀ d ∈ liveClauses st, (c.getD pos ⟨0, true⟩).negate ∈ d →
      is_drupB (liveClauses st) (resolvent c (c.getD pos ⟨0, true⟩) d) = true) :
    st.is_drat_pos c pos = (true, st) :=
  checkResolvents_true (liveClauses st) st h1 h2 h

theorem searchPivots_restores {c : Clause} :
    ∀ (ps : List Nat) (st : DratState), (∀ v, st.m_assignment v = none) →
      st.m_units = [] → (searchPivots c ps st).2 = st := by
  intro ps
  induction ps with
  | nil => intro st _ _; rfl
  | cons p ps ih =>
    intro st h1 h2
    unfold searchPivots
    have hr2 : (st.is_drat_pos c p).2 = st := is_drat_pos_restores h1 h2
    by_cases hr1 : (st.is_drat_pos c p).1 = true
    · simp only [hr1, if_true]
      exact hr2
    · simp only [hr1, if_false]
      rw [hr2]
      exact ih st h1 h2

theorem is_drat_restores {st : DratState} {c : Clause}
    (h1 : ∀ v, st.m_assignment v = none) (h2 : st.m_units = []) :
    (st.is_drat c).2 = st := by
  unfold DratState.is_drat
  have hr2 : (st.is_drup c).2 = st := is_drup_restores h1 h2
  by_cases hr1 : (st.is_drup c).1 = true
  · simp only [hr1, if_true]
    exact hr2
  · simp only [hr1, if_false]
    rw [hr2]
    exact searchPivots_restores _ st h1 h2

/-! ### Claim theorems -/

/-- C1: if `is_drup(n, c)` returns valid, then the negations of the literals
of `c` together with the current live clause set yield a conflict under unit
propagation run to closure, and `c` is semantically implied by the live
clause set. -/
theorem rup_soundness (st : DratState) (c : Clause)
    (h1 : ∀ v, st.m_assignment v = none) (h2 : st.m_units = [])
    (h3 : (st.is_drup c).1 = true) :
    RupValid (liveClauses st) c ∧ Implied (liveClauses st) c := by
  have hp : is_drupB (liveClauses st) c = true := by
    rw [← is_drup_fst_pure h1 h2]
    exact h3
  have hv := is_drupB_sound hp
  exact ⟨hv, RupValid_implied hv⟩

/-- Witness for C1 on the specification's example: clause set `{x, ¬x ∨ y}`
and candidate clause `y`. -/
theorem rup_soundness_witness :
    (exState.is_drup [⟨1, true⟩]).1 = true ∧
      (RupValid (liveClauses exState) [⟨1, true⟩] ∧
        Implied (liveClauses exState) [⟨1, true⟩]) :=
  ⟨by decide, rup_soundness exState [⟨1, true⟩] (fun _ => rfl) rfl (by decide)⟩

/-- C2: on every return path, `is_drup` and `is_drat` (the fixed-pivot form
and the pivot-searching form) restore the assignment state and the trail —
indeed the whole layer state — to exactly their values before the call. -/
theorem unwind_invariant (st : DratState) (c : Clause) (pos : Nat)
    (h1 : ∀ v, st.m_assignment v = none) (h2 : st.m_units = []) :
    (st.is_drup c).2 = st ∧ (st.is_drat_pos c pos).2 = st ∧ (st.is_drat c).2 = st :=
  ⟨is_drup_restores h1 h2, is_drat_pos_restores h1 h2, is_drat_restores h1 h2⟩

/-- Witness for C2 on the example state. -/
theorem unwind_invariant_witness :
    (exState.is_drup [⟨1, true⟩]).2 = exState ∧
      (exState.is_drat_pos [⟨1, true⟩] 0).2 = exState ∧
      (exState.is_drat [⟨1, true⟩]).2 = exState :=
  unwind_invariant exState [⟨1, true⟩] 0 (fun _ => rfl) rfl

/-- C5: a clause accepted by `is_drup` is accepted by `is_drat` with the
pivot fixed at any position of the clause. -/
theorem rat_generalizes_rup (st : DratState) (c : Clause) (pos : Nat)
    (h1 : ∀ v, st.m_assignment v = none) (h2 : st.m_units = [])
    (_hpos : pos < c.length) (h : (st.is_drup c).1 = true) :
    (st.is_drat_pos c pos).1 = true := by
  have hp : is_drupB (liveClauses st) c = true := by
    rw [← is_drup_fst_pure h1 h2]
    exact h
  have hd : is_dratB (liveClauses st) c pos = true := is_dratB_of_is_drupB hp
  have hd2 : (liveClauses st).all
      (fun d => if (c.getD pos ⟨0, true⟩).negate ∈ d
        then is_drupB (liveClauses st) (resolvent c (c.getD pos ⟨0, true⟩) d)
        else true) = true := hd
  have hall : ∀ d ∈ liveClauses st, (c.getD pos ⟨0, true⟩).negate ∈ d →
      is_drupB (liveClauses st) (resolvent c (c.getD pos ⟨0, true⟩) d) = true := by
    intro d hdm hm
    have := List.all_eq_true.mp hd2 d hdm
    rwa [if_pos hm] at this
  rw [is_drat_pos_true h1 h2 hall]

/-- Witness for C5 on the example state: candidate `y`, pivot position 0. -/
theorem rat_generalizes_rup_witness :
    0 < ([⟨1, true⟩] : Clause).length ∧ (exState.is_drup [⟨1, true⟩]).1 = true ∧
      (exState.is_drat_pos [⟨1, true⟩] 0).1 = true :=
  ⟨by decide, by decide,
    rat_generalizes_rup exState [⟨1, true⟩] 0 (fun _ => rfl) rfl (by decide) (by decide)⟩

/-! ### The inconsistency flag is terminal -/

theorem verify_shortcircuit {st : DratState} {c : Clause}
    (h : st.m_inconsistent = true) : st.verify c = (true, st) := by
  unfold DratState.verify
  rw [if_pos h]

theorem bool_def_state_cases (st : DratState) (v n : Nat) :
    (st.bool_def v n).2 = st ∨
      (st.bool_def v n).2 =
        { st with
          m_bool_def := fun w => if w = v then some n else st.m_bool_def w
          m_out := st.m_out ++ ["c b " ++ toString v ++ " := " ++ toString n ++ " 0"] } := by
  unfold DratState.bool_def
  cases hb : st.m_bool_def v with
  | some m =>
    left
    by_cases hmn : m = n <;> simp [hmn]
  | none => right; rfl

theorem def_end_state_cases (st : DratState) :
    st.def_end = st ∨ ∃ d, st.def_end =
      { st with m_defs := st.m_defs ++ [d], m_def_open := none,
                m_out := st.m_out ++ [defLine d] } := by
  unfold DratState.def_end
  cases ho : st.m_def_open with
  | none => left; rfl
  | some d => right; exact ⟨d, rfl⟩

theorem def_begin_state_cases (st : DratState) (n : Nat) (name : String) :
    (st.def_begin n name).2 = st ∨
      (st.def_begin n name).2 = { st with m_def_open := some ⟨n, name, []⟩ } := by
  unfold DratState.def_begin
  cases ho : st.m_def_open with
  | some d => left; rfl
  | none => right; rfl

theorem applyOp_keeps_inconsistent {st : DratState} {op : Op}
    (h : st.m_inconsistent = true) : (applyOp st op).m_inconsistent = true := by
  cases op with
  | add c s => exact h
  | del c => exact h
  | verifyOp c =>
    show ((st.verify c).2).m_inconsistent = true
    rw [verify_shortcircuit h]
    exact h
  | boolDef v n =>
    show ((st.bool_def v n).2).m_inconsistent = true
    rcases bool_def_state_cases st v n with he | he <;> rw [he] <;> exact h
  | defBegin n name =>
    show ((st.def_begin n name).2).m_inconsistent = true
    rcases def_begin_state_cases st n name with he | he <;> rw [he] <;> exact h
  | defAddArg a => exact h
  | defEnd =>
    show (st.def_end).m_inconsistent = true
    rcases def_end_state_cases st with he | ⟨d, he⟩ <;> rw [he] <;> exact h

theorem applyOps_keeps_inconsistent :
    ∀ (ops : List Op) (st : DratState), st.m_inconsistent = true →
      (applyOps st ops).m_inconsistent = true := by
  intro ops
  induction ops with
  | nil => intro st h; exact h
  | cons op ops ih =>
    intro st h
    exact ih (applyOp st op) (applyOp_keeps_inconsistent h)

theorem verify_empty_sets_flag (st : DratState) (h : (st.verify []).1 = true) :
    ((st.verify []).2).m_inconsistent = true := by
  cases hi : st.m_inconsistent with
  | true => rw [verify_shortcircuit hi]; exact hi
  | false =>
    unfold DratState.verify at h ⊢
    rw [if_neg (by simp [hi])] at h ⊢
    by_cases hr : (st.is_drat []).1 = true
    · rw [if_pos (by simp [hr, List.isEmpty])] at h ⊢
    · rw [if_neg (by simp [hr])] at h
      exact absurd h hr

/-- C3: once the global inconsistency flag is set it is never cleared by any
operation or operation sequence, every subsequent `verify` short-circuits to
valid without touching the state, and a successful top-level verification of
the empty clause sets the flag. -/
theorem inconsistent_terminal :
    (∀ (st : DratState) (op : Op), st.m_inconsistent = true →
        (applyOp st op).m_inconsistent = true) ∧
    (∀ (st : DratState) (ops : List Op), st.m_inconsistent = true →
        (applyOps st ops).m_inconsistent = true) ∧
    (∀ (st : DratState) (c : Clause), st.m_inconsistent = true →
        st.verify c = (true, st)) ∧
    (∀ st : DratState, (st.verify []).1 = true →
        ((st.verify []).2).m_inconsistent = true) :=
  ⟨fun _ op h => @applyOp_keeps_inconsistent _ op h,
   fun st ops h => applyOps_keeps_inconsistent ops st h,
   fun _ _ h => verify_shortcircuit h,
   verify_empty_sets_flag⟩

/-- Witness for C3 on the inconsistent example state. -/
theorem inconsistent_terminal_witness :
    (applyOp exIncState (Op.del [⟨0, true⟩])).m_inconsistent = true ∧
      (applyOps exIncState [Op.add [] Status.learned, Op.defEnd]).m_inconsistent = true ∧
      exIncState.verify [⟨0, true⟩] = (true, exIncState) ∧
      ((exIncState.verify []).2).m_inconsistent = true :=
  ⟨inconsistent_terminal.1 exIncState (Op.del [⟨0, true⟩]) rfl,
   inconsistent_terminal.2.1 exIncState [Op.add [] Status.learned, Op.defEnd] rfl,
   inconsistent_terminal.2.2.1 exIncState [⟨0, true⟩] rfl,
   inconsistent_terminal.2.2.2 exIncState (by decide)⟩

/-! ### The model checker -/

theorem find?_first {α : Type} {p : α → Bool} :
    ∀ {l : List α} {a : α}, l.find? p = some a →
      ∃ l1 l2, l = l1 ++ a :: l2 ∧ ∀ x ∈ l1, p x = false := by
  intro l
  induction l with
  | nil => intro a h; simp at h
  | cons x xs ih =>
    intro a h
    cases hp : p x with
    | true =>
      rw [List.find?_cons_of_pos _ hp] at h
      have hxa : x = a := by simpa using h
      exact ⟨[], xs, by simp [hxa], fun y hy => absurd hy (List.not_mem_nil y)⟩
    | false =>
      rw [List.find?_cons_of_neg _ (by simp [hp])] at h
      rcases ih h with ⟨l1, l2, heq, hall⟩
      refine ⟨x :: l1, l2, by rw [List.cons_append, heq], ?_⟩
      intro y hy
      rcases List.mem_cons.mp hy with h1 | h1
      · rw [h1]; exact hp
      · exact hall y h1

/-- C4: `check_model(m)` reports success precisely when every live clause has
a true literal under `m`; on failure the clause it reports is violated, live,
and the first such clause in iteration order. -/
theorem check_model_spec (st : DratState) (m : Nat → Bool) :
    (st.check_model m = none ↔
      ∀ C ∈ liveClauses st, ∃ l ∈ C, evalLit m l = true) ∧
    (∀ C, st.check_model m = some C →
      (∀ l ∈ C, evalLit m l = false) ∧ C ∈ liveClauses st ∧
        ∃ pre post, liveClauses st = pre ++ C :: post ∧
          ∀ D ∈ pre, ∃ l ∈ D, evalLit m l = true) := by
  constructor
  · unfold DratState.check_model
    rw [List.find?_eq_none]
    constructor
    · intro h C hC
      have h2 := h C hC
      rw [Bool.not_eq_true, Bool.not_eq_false'] at h2
      rcases List.any_eq_true.mp h2 with ⟨l, hl, he⟩
      exact ⟨l, hl, he⟩
    · intro h C hC
      rcases h C hC with ⟨l, hl, he⟩
      rw [Bool.not_eq_true, Bool.not_eq_false']
      exact List.any_eq_true.mpr ⟨l, hl, he⟩
  · intro C h
    unfold DratState.check_model at h
    have hpC := List.find?_some h
    have hmem := List.mem_of_find?_eq_some h
    have hany : C.any (evalLit m) = false := by
      cases hx : C.any (evalLit m) with
      | false => rfl
      | true => rw [hx] at hpC; exact absurd hpC (by simp)
    have hviol : ∀ l ∈ C, evalLit m l = false := by
      intro l hl
      have hne := List.any_eq_false.mp hany l hl
      cases he : evalLit m l with
      | false => rfl
      | true => exact absurd he hne
    refine ⟨hviol, hmem, ?_⟩
    rcases find?_first h with ⟨pre, post, heq, hall⟩
    refine ⟨pre, post, heq, ?_⟩
    intro D hD
    have hDf := hall D hD
    rw [Bool.not_eq_false'] at hDf
    rcases List.any_eq_true.mp hDf with ⟨l, hl, he⟩
    exact ⟨l, hl, he⟩

/-- Witness for C4: under the model `x := true, y := false` the reported
clause is `¬x ∨ y`, the first (and only) violated live clause. -/
theorem check_model_spec_witness :
    exState.check_model exModel = some [⟨0, false⟩, ⟨1, true⟩] ∧
      ((∀ l ∈ ([⟨0, false⟩, ⟨1, true⟩] : Clause), evalLit exModel l = false) ∧
        [⟨0, false⟩, ⟨1, true⟩] ∈ liveClauses exState ∧
        ∃ pre post, liveClauses exState = pre ++ [⟨0, false⟩, ⟨1, true⟩] :: post ∧
          ∀ D ∈ pre, ∃ l ∈ D, evalLit exModel l = true) :=
  ⟨by decide, (check_model_spec exState exModel).2 [⟨0, false⟩, ⟨1, true⟩] (by decide)⟩

/-! ### Deletion is monotone and final -/

theorem mem_liveClauses {st : DratState} {C : Clause} :
    C ∈ liveClauses st ↔ ∃ s, (C, s) ∈ st.m_proof ∧ s ≠ Status.deleted := by
  unfold liveClauses
  constructor
  · intro h
    rcases List.mem_map.mp h with ⟨e, he, heC⟩
    rcases List.mem_filter.mp he with ⟨hp, hd⟩
    refine ⟨e.2, ?_, by simpa using hd⟩
    rw [← heC]
    exact hp
  · rintro ⟨s, hmem, hs⟩
    exact List.mem_map.mpr
      ⟨(C, s), List.mem_filter.mpr ⟨hmem, by simpa using hs⟩, rfl⟩

theorem contains_del_false (st : DratState) (c : Clause) :
    (st.del c).contains c = false := by
  cases hx : (st.del c).contains c with
  | false => rfl
  | true =>
    exfalso
    rcases List.any_eq_true.mp hx with ⟨D, hD, hlse⟩
    rcases mem_liveClauses.mp hD with ⟨s, hmem, hs⟩
    rcases List.mem_map.mp hmem with ⟨e, _, hfe⟩
    by_cases hm : litSetEq c e.1 = true
    · rw [if_pos hm] at hfe
      have : s = Status.deleted := (Prod.mk.injEq _ _ _ _).mp hfe |>.2.symm
      exact hs this
    · rw [if_neg hm] at hfe
      apply hm
      have he1 : e.1 = D := by rw [hfe]
      rw [he1]
      exact hlse

theorem del_marks_all (st : DratState) (c : Clause) :
    ∀ e ∈ (st.del c).m_proof, litSetEq c e.1 = true → e.2 = Status.deleted := by
  intro e he hlse
  rcases List.mem_map.mp he with ⟨e0, _, hfe⟩
  by_cases hm : litSetEq c e0.1 = true
  · rw [if_pos hm] at hfe
    rw [← hfe]
  · rw [if_neg hm] at hfe
    rw [← hfe] at hlse
    exact absurd hlse hm

theorem is_drup_proof_eq (st : DratState) (c : Clause) :
    ((st.is_drup c).2).m_proof = st.m_proof := rfl

theorem checkResolvents_proof_eq {c : Clause} {piv : Lit} :
    ∀ (ds : List Clause) (st : DratState),
      ((checkResolvents c piv ds st).2).m_proof = st.m_proof := by
  intro ds
  induction ds with
  | nil => intro st; rfl
  | cons d ds ih =>
    intro st
    by_cases hmem : piv.negate ∈ d
    · rw [checkResolvents_cons_mem hmem]
      by_cases hr1 : (st.is_drup (resolvent c piv d)).1 = true
      · rw [if_pos hr1, ih]
        exact is_drup_proof_eq st _
      · rw [if_neg hr1]
        exact is_drup_proof_eq st _
    · rw [checkResolvents_cons_not hmem]
      exact ih st

theorem searchPivots_proof_eq {c : Clause} :
    ∀ (ps : List Nat) (st : DratState),
      ((searchPivots c ps st).2).m_proof = st.m_proof := by
  intro ps
  induction ps with
  | nil => intro st; rfl
  | cons p ps ih =>
    intro st
    unfold searchPivots
    by_cases hr1 : (st.is_drat_pos c p).1 = true
    · rw [if_pos hr1]
      exact checkResolvents_proof_eq _ st
    · rw [if_neg hr1, ih]
      exact checkResolvents_proof_eq _ st

theorem is_drat_proof_eq (st : DratState) (c : Clause) :
    ((st.is_drat c).2).m_proof = st.m_proof := by
  unfold DratState.is_drat
  by_cases hr1 : (st.is_drup c).1 = true
  · rw [if_pos hr1]
    exact is_drup_proof_eq st c
  · rw [if_neg hr1, searchPivots_proof_eq]
    exact is_drup_proof_eq st c

theorem verify_proof_eq (st : DratState) (c : Clause) :
    ((st.verify c).2).m_proof = st.m_proof := by
  unfold DratState.verify
  by_cases hi : st.m_inconsistent = true
  · rw [if_pos hi]
  · rw [if_neg hi]
    by_cases hr : ((st.is_drat c).1 && c.isEmpty) = true
    · rw [if_pos hr]
      exact is_drat_proof_eq st c
    · rw [if_neg hr]
      exact is_drat_proof_eq st c

theorem applyOp_preserves_deleted {st : DratState} {op : Op} {i : Nat} {d : Clause}
    (h : st.m_proof[i]? = some (d, Status.deleted)) :
    (applyOp st op).m_proof[i]? = some (d, Status.deleted) := by
  cases op with
  | add c s =>
    show (st.m_proof ++ [(c, s)])[i]? = _
    have hi : i < st.m_proof.length := by
      by_contra hni
      rw [List.getElem?_eq_none (Nat.le_of_not_lt hni)] at h
      exact absurd h (by simp)
    rw [List.getElem?_append_left hi]
    exact h
  | del c =>
    show ((st.m_proof.map _))[i]? = _
    rw [List.getElem?_map, h]
    show some _ = _
    by_cases hm : litSetEq c d = true
    · simp [hm]
    · simp [hm]
  | verifyOp c =>
    show ((st.verify c).2).m_proof[i]? = _
    rw [verify_proof_eq]
    exact h
  | boolDef v n =>
    show ((st.bool_def v n).2).m_proof[i]? = _
    rcases bool_def_state_cases st v n with he | he <;> rw [he] <;> exact h
  | defBegin n name =>
    show ((st.def_begin n name).2).m_proof[i]? = _
    rcases def_begin_state_cases st n name with he | he <;> rw [he] <;> exact h
  | defAddArg a => exact h
  | defEnd =>
    show (st.def_end).m_proof[i]? = _
    rcases def_end_state_cases st with he | ⟨e, he⟩ <;> rw [he] <;> exact h

theorem applyOps_preserves_deleted :
    ∀ (ops : List Op) (st : DratState) (i : Nat) (d : Clause),
      st.m_proof[i]? = some (d, Status.deleted) →
      (applyOps st ops).m_proof[i]? = some (d, Status.deleted) := by
  intro ops
  induction ops with
  | nil => intro st i d h; exact h
  | cons op ops ih =>
    intro st i d h
    exact ih (applyOp st op) i d (applyOp_preserves_deleted h)

/-- C6: after `del(c)` the clause is no longer contained: every stored entry
with the same literal set is marked deleted, the mark survives every further
operation, and the clause list consulted by propagation holds only clauses
stemming from non-deleted entries. -/
theorem del_monotone (st : DratState) (c : Clause) :
    (st.del c).contains c = false ∧
    (∀ e ∈ (st.del c).m_proof, litSetEq c e.1 = true → e.2 = Status.deleted) ∧
    (∀ (ops : List Op) (i : Nat) (d : Clause),
      (st.del c).m_proof[i]? = some (d, Status.deleted) →
      (applyOps (st.del c) ops).m_proof[i]? = some (d, Status.deleted)) ∧
    (∀ st2 : DratState, ∀ C ∈ liveClauses st2,
      ∃ s, (C, s) ∈ st2.m_proof ∧ s ≠ Status.deleted) :=
  ⟨contains_del_false st c, del_marks_all st c,
   fun ops i d h => applyOps_preserves_deleted ops (st.del c) i d h,
   fun _ _ hC => mem_liveClauses.mp hC⟩

/-- Witness for C6: delete the unit clause `x` of the example state and then
add another clause on top. -/
theorem del_monotone_witness :
    (exState.del [⟨0, true⟩]).contains [⟨0, true⟩] = false ∧
      (applyOps (exState.del [⟨0, true⟩]) [Op.add [⟨0, true⟩] Status.learned]).m_proof[0]? =
        some ([⟨0, true⟩], Status.deleted) :=
  ⟨(del_monotone exState [⟨0, true⟩]).1,
   (del_monotone exState [⟨0, true⟩]).2.2.1 [Op.add [⟨0, true⟩] Status.learned] 0
     [⟨0, true⟩] (by decide)⟩

/-! ### Term-bridge protocol -/

/-- C7: a variable's term binding is set at most once — rebinding to the same
term id succeeds as a pure no-op, rebinding to a different term id is
rejected as an error and also leaves the state unchanged, while a first
binding succeeds and records the association. -/
theorem bool_def_unique (st : DratState) (v n m : Nat) :
    (st.m_bool_def v = some m →
      ((n = m → st.bool_def v n = (true, st)) ∧
        (n ≠ m → st.bool_def v n = (false, st)))) ∧
    (st.m_bool_def v = none →
      (st.bool_def v n).1 = true ∧ ((st.bool_def v n).2).m_bool_def v = some n) := by
  constructor
  · intro h
    constructor
    · intro he
      simp only [DratState.bool_def, h]
      rw [if_pos he.symm]
    · intro he
      simp only [DratState.bool_def, h]
      rw [if_neg (fun hc => he hc.symm)]
  · intro h
    simp only [DratState.bool_def, h]
    exact ⟨trivial, by simp⟩

/-- Witness for C7: bind variable 3 to term 7, then rebind to 7 (no-op) and
to 8 (error). -/
theorem bool_def_unique_witness :
    ((exState.bool_def 3 7).2).bool_def 3 7 = (true, (exState.bool_def 3 7).2) ∧
      ((exState.bool_def 3 7).2).bool_def 3 8 = (false, (exState.bool_def 3 7).2) ∧
      ((exState.bool_def 3 7).1 = true ∧
        ((exState.bool_def 3 7).2).m_bool_def 3 = some 7) :=
  ⟨((bool_def_unique ((exState.bool_def 3 7).2) 3 7 7).1 (by decide)).1 rfl,
   ((bool_def_unique ((exState.bool_def 3 7).2) 3 8 7).1 (by decide)).2 (by decide),
   (bool_def_unique exState 3 7 0).2 rfl⟩

/-- C8: opening a term definition while one is open is a reported error that
leaves the state unchanged, opening one with the slot clear succeeds and
fills the in-progress slot, and `def_end` always clears the slot. -/
theorem def_begin_exclusive (st : DratState) (n : Nat) (name : String) :
    (st.m_def_open.isSome = true → st.def_begin n name = (false, st)) ∧
    (st.m_def_open = none →
      (st.def_begin n name).1 = true ∧
        ((st.def_begin n name).2).m_def_open = some ⟨n, name, []⟩) ∧
    (st.def_end).m_def_open = none := by
  refine ⟨?_, ?_, ?_⟩
  · intro h
    unfold DratState.def_begin
    cases ho : st.m_def_open with
    | none => rw [ho] at h; exact absurd h (by simp)
    | some d => rfl
  · intro h
    simp [DratState.def_begin, h]
  · unfold DratState.def_end
    cases ho : st.m_def_open with
    | none => rw [ho]
    | some d => rfl

/-- Witness for C8: open a definition, then try to open a second one, and
close the first. -/
theorem def_begin_exclusive_witness :
    ((exState.def_begin 5 "f").2).def_begin 6 "g" = (false, (exState.def_begin 5 "f").2) ∧
      (((exState.def_begin 5 "f").2).def_end).m_def_open = none ∧
      ((exState.def_begin 5 "f").1 = true ∧
        ((exState.def_begin 5 "f").2).m_def_open = some ⟨5, "f", []⟩) :=
  ⟨(def_begin_exclusive ((exState.def_begin 5 "f").2) 6 "g").1 (by decide),
   (def_begin_exclusive ((exState.def_begin 5 "f").2) 0 "").2.2,
   (def_begin_exclusive exState 5 "f").2.1 rfl⟩

/-! ### Emission depends only on the operations and the core state -/

theorem is_drup_out (st : DratState) (c : Clause) (o b : List String) :
    ({ st with m_out := o, m_bout := b } : DratState).is_drup c =
      ((st.is_drup c).1, { (st.is_drup c).2 with m_out := o, m_bout := b }) := rfl

theorem checkResolvents_out {c : Clause} {piv : Lit} :
    ∀ (ds : List Clause) (st : DratState) (o b : List String),
      checkResolvents c piv ds { st with m_out := o, m_bout := b } =
        ((checkResolvents c piv ds st).1,
          { (checkResolvents c piv ds st).2 with m_out := o, m_bout := b }) := by
  intro ds
  induction ds with
  | nil => intro st o b; rfl
  | cons d ds ih =>
    intro st o b
    by_cases hmem : piv.negate ∈ d
    · rw [checkResolvents_cons_mem hmem, checkResolvents_cons_mem hmem, is_drup_out]
      dsimp only
      by_cases hr1 : (st.is_drup (resolvent c piv d)).1 = true
      · rw [if_pos hr1, if_pos hr1]
        exact ih _ o b
      · rw [if_neg hr1, if_neg hr1]
    · rw [checkResolvents_cons_not hmem, checkResolvents_cons_not hmem]
      exact ih st o b

theorem is_drat_pos_out (st : DratState) (c : Clause) (pos : Nat) (o b : List String) :
    ({ st with m_out := o, m_bout := b } : DratState).is_drat_pos c pos =
      ((st.is_drat_pos c pos).1,
        { (st.is_drat_pos c pos).2 with m_out := o, m_bout := b }) := by
  show checkResolvents c (c.getD pos ⟨0, true⟩) (liveClauses st)
      { st with m_out := o, m_bout := b } = _
  exact checkResolvents_out (liveClauses st) st o b

theorem searchPivots_out {c : Clause} :
    ∀ (ps : List Nat) (st : DratState) (o b : List String),
      searchPivots c ps { st with m_out := o, m_bout := b } =
        ((searchPivots c ps st).1,
          { (searchPivots c ps st).2 with m_out := o, m_bout := b }) := by
  intro ps
  induction ps with
  | nil => intro st o b; rfl
  | cons p ps ih =>
    intro st o b
    simp only [searchPivots]
    rw [is_drat_pos_out]
    dsimp only
    by_cases hr1 : (st.is_drat_pos c p).1 = true
    · rw [if_pos hr1, if_pos hr1]
    · rw [if_neg hr1, if_neg hr1]
      exact ih _ o b

theorem is_drat_out (st : DratState) (c : Clause) (o b : List String) :
    ({ st with m_out := o, m_bout := b } : DratState).is_drat c =
      ((st.is_drat c).1, { (st.is_drat c).2 with m_out := o, m_bout := b }) := by
  unfold DratState.is_drat
  rw [is_drup_out]
  dsimp only
  by_cases hr1 : (st.is_drup c).1 = true
  · rw [if_pos hr1, if_pos hr1]
  · rw [if_neg hr1, if_neg hr1]
    exact searchPivots_out _ _ o b

theorem verify_out (st : DratState) (c : Clause) (o b : List String) :
    ({ st with m_out := o, m_bout := b } : DratState).verify c =
      ((st.verify c).1, { (st.verify c).2 with m_out := o, m_bout := b }) := by
  unfold DratState.verify
  dsimp only
  by_cases hi : st.m_inconsistent = true
  · rw [if_pos hi, if_pos hi]
  · rw [if_neg hi, if_neg hi, is_drat_out]
    dsimp only
    by_cases hr : ((st.is_drat c).1 && c.isEmpty) = true
    · rw [if_pos hr, if_pos hr]
    · rw [if_neg hr, if_neg hr]

theorem applyOp_out (op : Op) (st : DratState) :
    ∃ dOut dBout, ∀ o b,
      applyOp { st with m_out := o, m_bout := b } op =
        { applyOp st op with m_out := o ++ dOut, m_bout := b ++ dBout } := by
  cases op with
  | add c s =>
    refine ⟨[dumpLine c s], if st.m_activity = true then [dumpLine c s] else [], ?_⟩
    intro o b
    dsimp only [applyOp]
    unfold DratState.add
    dsimp only
    by_cases ha : st.m_activity = true
    · simp [ha]
    · simp [ha]
  | del c =>
    refine ⟨[dumpLine c Status.deleted],
      if st.m_activity = true then [dumpLine c Status.deleted] else [], ?_⟩
    intro o b
    dsimp only [applyOp]
    unfold DratState.del
    dsimp only
    by_cases ha : st.m_activity = true
    · simp [ha]
    · simp [ha]
  | verifyOp c =>
    refine ⟨[], [], ?_⟩
    intro o b
    dsimp only [applyOp]
    rw [verify_out]
    simp
  | boolDef v n =>
    refine ⟨(match st.m_bool_def v with
      | none => ["c b " ++ toString v ++ " := " ++ toString n ++ " 0"]
      | some _ => []), [], ?_⟩
    intro o b
    dsimp only [applyOp]
    unfold DratState.bool_def
    dsimp only
    cases hb : st.m_bool_def v with
    | some m =>
      simp only [hb]
      by_cases hmn : m = n <;> simp [hmn]
    | none => simp [hb]
  | defBegin n name =>
    refine ⟨[], [], ?_⟩
    intro o b
    dsimp only [applyOp]
    unfold DratState.def_begin
    dsimp only
    cases ho : st.m_def_open with
    | some d => simp [ho]
    | none => simp [ho]
  | defAddArg a =>
    refine ⟨[], [], ?_⟩
    intro o b
    dsimp only [applyOp]
    unfold DratState.def_add_arg
    dsimp only
    simp
  | defEnd =>
    refine ⟨(match st.m_def_open with
      | none => []
      | some d => [defLine d]), [], ?_⟩
    intro o b
    dsimp only [applyOp]
    unfold DratState.def_end
    dsimp only
    cases ho : st.m_def_open with
    | some d => simp [ho]
    | none => simp [ho]

theorem applyOps_out :
    ∀ (ops : List Op) (st : DratState), ∃ dOut dBout, ∀ o b,
      applyOps { st with m_out := o, m_bout := b } ops =
        { applyOps st ops with m_out := o ++ dOut, m_bout := b ++ dBout } := by
  intro ops
  induction ops with
  | nil =>
    intro st
    exact ⟨[], [], fun o b => by simp [applyOps]⟩
  | cons op ops ih =>
    intro st
    rcases applyOp_out op st with ⟨d1, e1, h1⟩
    rcases ih (applyOp st op) with ⟨d2, e2, h2⟩
    refine ⟨d1 ++ d2, e1 ++ e2, ?_⟩
    intro o b
    show applyOps (applyOp { st with m_out := o, m_bout := b } op) ops = _
    rw [h1 o b, h2 (o ++ d1) (b ++ e1)]
    show _ = { applyOps (applyOp st op) ops with
      m_out := o ++ (d1 ++ d2), m_bout := b ++ (e1 ++ e2) }
    rw [List.append_assoc, List.append_assoc]

/-- C9: running the same operation sequence of `add` and `del` calls against
two independent pairs of output streams, under the same configuration,
appends byte-identical content to both the primary and the secondary
stream. -/
theorem emission_deterministic (ops : List Op) (cfg : Config)
    (o1 b1 o2 b2 : List String) (_hops : ∀ op ∈ ops, op.isAddDel = true) :
    (applyOps (initState cfg o1 b1) ops).m_out.drop o1.length =
      (applyOps (initState cfg o2 b2) ops).m_out.drop o2.length ∧
    (applyOps (initState cfg o1 b1) ops).m_bout.drop b1.length =
      (applyOps (initState cfg o2 b2) ops).m_bout.drop b2.length := by
  rcases applyOps_out ops (initState cfg [] []) with ⟨dOut, dBout, h⟩
  have e1 : initState cfg o1 b1 =
      { initState cfg [] [] with m_out := o1, m_bout := b1 } := rfl
  have e2 : initState cfg o2 b2 =
      { initState cfg [] [] with m_out := o2, m_bout := b2 } := rfl
  rw [e1, e2, h o1 b1, h o2 b2]
  constructor
  · show (o1 ++ dOut).drop o1.length = (o2 ++ dOut).drop o2.length
    rw [List.drop_left, List.drop_left]
  · show (b1 ++ dBout).drop b1.length = (b2 ++ dBout).drop b2.length
    rw [List.drop_left, List.drop_left]

/-- Witness for C9: an add/del pair against an empty stream and a non-empty
stream. -/
theorem emission_deterministic_witness :
    (∀ op ∈ [Op.add [⟨0, true⟩] Status.asserted, Op.del [⟨0, true⟩]],
      op.isAddDel = true) ∧
    ((applyOps (initState ⟨true, true, true, true⟩ [] [])
        [Op.add [⟨0, true⟩] Status.asserted, Op.del [⟨0, true⟩]]).m_out.drop 0 =
      (applyOps (initState ⟨true, true, true, true⟩ ["zzz"] ["w"])
        [Op.add [⟨0, true⟩] Status.asserted, Op.del [⟨0, true⟩]]).m_out.drop 1 ∧
     (applyOps (initState ⟨true, true, true, true⟩ [] [])
        [Op.add [⟨0, true⟩] Status.asserted, Op.del [⟨0, true⟩]]).m_bout.drop 0 =
      (applyOps (initState ⟨true, true, true, true⟩ ["zzz"] ["w"])
        [Op.add [⟨0, true⟩] Status.asserted, Op.del [⟨0, true⟩]]).m_bout.drop 1) :=
  ⟨by decide,
   emission_deterministic [Op.add [⟨0, true⟩] Status.asserted, Op.del [⟨0, true⟩]]
     ⟨true, true, true, true⟩ [] [] ["zzz"] ["w"] (by decide)⟩

/-! ### The convenience overloads agree with the general array forms -/

theorem range_map_getD (l : List Lit) :
    (List.range l.length).map (fun i => l.getD i ⟨0, true⟩) = l := by
  apply List.ext_getElem
  · simp
  · intro i h1 h2
    simp [List.getD_eq_getElem?_getD, List.getElem?_eq_getElem h2]

/-- C10: the clause overload equals the general form at `size()`/`begin()`
applied to the clause's literal list, and the two- and three-literal overloads equal
the general form on the corresponding literal arrays, for `verify` and for
`contains` alike. -/
theorem overloads_equiv (st : DratState) (c : ClauseObj) (l1 l2 l3 : Lit) :
    st.verifyClause c = st.verify c.lits ∧
    st.verify2 l1 l2 = st.verify [l1, l2] ∧
    st.verify3 l1 l2 l3 = st.verify [l1, l2, l3] ∧
    st.containsClause c = st.contains c.lits ∧
    st.contains2 l1 l2 = st.contains [l1, l2] ∧
    st.contains3 l1 l2 l3 = st.contains [l1, l2, l3] := by
  refine ⟨?_, rfl, rfl, ?_, rfl, rfl⟩
  · show st.verify ((List.range c.lits.length).map (fun i => c.lits.getD i ⟨0, true⟩)) = _
    rw [range_map_getD]
  · show st.contains ((List.range c.lits.length).map (fun i => c.lits.getD i ⟨0, true⟩)) = _
    rw [range_map_getD]

end sat
